import Mathlib

/-!
Shallow embedding of the FEC core of `src/src/coding.c` (convolutional
encoder, hard/soft Viterbi decoders, block interleaver) together with
proofs of the specification claims about it.

Modelling conventions:
* C bit arrays (`uint8_t *`) become `List Nat`; the code masks loads with
  `& 1`, which we render as `% 2`.
* The path-metric arrays (`double pm[64]`, initialised to `VITERBI_INF =
  1e30`) become `List (Option Nat)` for the hard decoder and
  `List (Option Int)` for the soft decoder, `none` standing for
  `VITERBI_INF`.  Every finite metric the hard decoder can accumulate is an
  integer bounded by `2 * 256`, and (for the saturated `±10.0` LLR inputs
  the claims consider) every finite soft metric is an integer multiple of
  `10` bounded in magnitude by `20 * 256`; all of these are exactly
  representable doubles, all additions and comparisons on them are exact,
  and they never reach `1e30`, so the `Option` models are faithful.
* `(x << 1) | b` with `b ∈ {0,1}` is rendered `2 * x + b`, and masking with
  an all-ones constant `2^k - 1` is rendered `% 2^k`.
* The C survivor array `int path[256][64]` is uninitialised; entries are
  written before any read that the traceback performs, so the model
  initialises them to `0` without affecting any observable value.
  The survivor rows are accumulated most-recent-first, matching the
  backward order in which the traceback walks them.
* `interleaver_apply`/`interleaver_deapply` write into a caller buffer; the
  claims only exercise them with `n = rows*cols`, where every position is
  written, so the model uses a zero-initialised output buffer.
-/

namespace WirelessComms

/-- Constant `CONV_K` from `include/coding.h`: constraint length. -/
def CONV_K : Nat := 7

/-- Constant `CONV_STATES = 1 << (CONV_K - 1) = 64`. -/
def CONV_STATES : Nat := 2 ^ (CONV_K - 1)

/-- Generator `CONV_G0 = 0133` (octal). -/
def CONV_G0 : Nat := 0o133

/-- Generator `CONV_G1 = 0171` (octal). -/
def CONV_G1 : Nat := 0o171

/-- Fuel-indexed body of the `popcount` loop in `coding.c`
(`while (x) { c += x & 1; x >>= 1; }`). -/
def popcountAux : Nat → Nat → Nat
  | 0, _ => 0
  | fuel + 1, x => if x = 0 then 0 else x % 2 + popcountAux fuel (x / 2)

/-- Function `popcount` from `coding.c`: number of set bits.  `x` halvings always
suffice as fuel. -/
def popcount (x : Nat) : Nat := popcountAux x x

/-- The recursion of `conv_encode`: running 7-bit shift register `state`,
emitting two coded bits per input bit.
`state = ((state << 1) | (in[i] & 1)) & (CONV_STATES*2 - 1)` is rendered
`(2 * state + b % 2) % (CONV_STATES * 2)`. -/
def conv_encodeAux : Nat → List Nat → List Nat
  | _, [] => []
  | state, b :: rest =>
    let s := (2 * state + b % 2) % (CONV_STATES * 2)
    popcount (s &&& CONV_G0) % 2 :: popcount (s &&& CONV_G1) % 2 ::
      conv_encodeAux s rest

/-- Function `conv_encode` from `coding.c`: rate-1/2 convolutional encoder, register
starting at 0. -/
def conv_encode (input : List Nat) : List Nat := conv_encodeAux 0 input

/-- One add-compare-select update of the hard Viterbi decoder: the body of
the double loop over `(s, bit)` in `viterbi_decode`.  `acc` carries the
`pm_new` array and the survivor row `path[t][·]`; a state entry `none`
models `VITERBI_INF`. -/
def tryTransition (pmOld : List (Option Nat)) (r0 r1 : Nat)
    (acc : List (Option Nat) × List Nat) (sb : Nat × Nat) :
    List (Option Nat) × List Nat :=
  match pmOld.getD sb.1 none with
  | none => acc
  | some m =>
    let s := sb.1
    let bit := sb.2
    let full := 2 * s + bit
    let ns := full % CONV_STATES
    let e0 := popcount (full &&& CONV_G0) % 2
    let e1 := popcount (full &&& CONV_G1) % 2
    let bm := (if e0 ≠ r0 then 1 else 0) + (if e1 ≠ r1 then 1 else 0)
    let metric := m + bm
    match acc.1.getD ns none with
    | none => (acc.1.set ns (some metric), acc.2.set ns s)
    | some old =>
      if metric < old then (acc.1.set ns (some metric), acc.2.set ns s)
      else acc

/-- The iteration order of the double loop in `viterbi_decode`:
`s = 0..63` outer, `bit = 0,1` inner. -/
def transitionOrder : List (Nat × Nat) :=
  (List.range CONV_STATES).foldr (fun s l => (s, 0) :: (s, 1) :: l) []

/-- One time step of the hard decoder: fresh `pm_new` of `VITERBI_INF`,
then all 128 transition updates in loop order. -/
def viterbiStep (pmOld : List (Option Nat)) (r0 r1 : Nat) :
    List (Option Nat) × List Nat :=
  transitionOrder.foldl (tryTransition pmOld r0 r1)
    (List.replicate CONV_STATES none, List.replicate CONV_STATES 0)

/-- Initial path metrics: all `VITERBI_INF`, then `pm_old[0] = 0`. -/
def pmInit : List (Option Nat) :=
  (List.replicate CONV_STATES (none : Option Nat)).set 0 (some 0)

/-- The forward pass of `viterbi_decode` over the received bit pairs,
collecting the survivor rows most-recent-first (the traceback walks them
from the last time step backwards). -/
def viterbiForward (pairs : List (Nat × Nat)) :
    List (Option Nat) × List (List Nat) :=
  pairs.foldl
    (fun acc p =>
      let st := viterbiStep acc.1 p.1 p.2
      (st.1, st.2 :: acc.2))
    (pmInit, [])

/-- The final-state comparison `pm_old[s] < pm_old[best_state]` on doubles,
with `none` standing for `VITERBI_INF = 1e30` (finite metrics never reach
it, and `1e30 < 1e30` is false). -/
def optLt : Option Nat → Option Nat → Bool
  | some a, some b => a < b
  | some _, none => true
  | none, _ => false

/-- Final-state selection of `viterbi_decode`: start at state 0, scan
`s = 1..63`, replace only on a strictly smaller metric. -/
def bestState (pm : List (Option Nat)) : Nat :=
  (List.range' 1 (CONV_STATES - 1)).foldl
    (fun best s => if optLt (pm.getD s none) (pm.getD best none) then s
                   else best) 0

/-- The traceback loop shared verbatim by `viterbi_decode` and
`viterbi_decode_soft`: from the current state emit
`(state >> (CONV_K - 2)) & 1` and step to the recorded predecessor.
The survivor rows arrive most-recent-first, so the recursion prepends
earlier decisions. -/
def traceback : Nat → List (List Nat) → List Nat
  | _, [] => []
  | state, surv :: rest =>
    traceback (surv.getD state 0) rest ++ [state >>> (CONV_K - 2) % 2]

/-- The received bit pairs `(coded[2t] & 1, coded[2t+1] & 1)` that the
decoder loop reads, for `t < max_len = min(n_coded/2, 256)`. -/
def decodePairs (coded : List Nat) : List (Nat × Nat) :=
  (List.range (min (coded.length / 2) 256)).map
    (fun t => (coded.getD (2 * t) 0 % 2, coded.getD (2 * t + 1) 0 % 2))

/-- Function `viterbi_decode` from `coding.c` (hard decision): forward pass, best
final state, traceback.  Returns the decoded bits; the C return value is
their count. -/
def viterbi_decode (coded : List Nat) : List Nat :=
  if coded.length / 2 < 1 then []
  else
    let fwd := viterbiForward (decodePairs coded)
    traceback (bestState fwd.1) fwd.2

/-- Soft add-compare-select: body of the double loop in
`viterbi_decode_soft`.  LLRs and metrics are modelled as integers (see the
file header); `bm = (e0 ? -l0 : l0) + (e1 ? -l1 : l1)`,
`metric = pm_old[s] - bm`. -/
def tryTransitionSoft (pmOld : List (Option Int)) (l0 l1 : Int)
    (acc : List (Option Int) × List Nat) (sb : Nat × Nat) :
    List (Option Int) × List Nat :=
  match pmOld.getD sb.1 none with
  | none => acc
  | some m =>
    let s := sb.1
    let bit := sb.2
    let full := 2 * s + bit
    let ns := full % CONV_STATES
    let e0 := popcount (full &&& CONV_G0) % 2
    let e1 := popcount (full &&& CONV_G1) % 2
    let bm := (if e0 ≠ 0 then -l0 else l0) + (if e1 ≠ 0 then -l1 else l1)
    let metric := m - bm
    match acc.1.getD ns none with
    | none => (acc.1.set ns (some metric), acc.2.set ns s)
    | some old =>
      if metric < old then (acc.1.set ns (some metric), acc.2.set ns s)
      else acc

/-- One time step of the soft decoder. -/
def viterbiStepSoft (pmOld : List (Option Int)) (l0 l1 : Int) :
    List (Option Int) × List Nat :=
  transitionOrder.foldl (tryTransitionSoft pmOld l0 l1)
    (List.replicate CONV_STATES none, List.replicate CONV_STATES 0)

/-- Initial soft path metrics. -/
def pmInitSoft : List (Option Int) :=
  (List.replicate CONV_STATES (none : Option Int)).set 0 (some 0)

/-- Forward pass of `viterbi_decode_soft`. -/
def viterbiForwardSoft (pairs : List (Int × Int)) :
    List (Option Int) × List (List Nat) :=
  pairs.foldl
    (fun acc p =>
      let st := viterbiStepSoft acc.1 p.1 p.2
      (st.1, st.2 :: acc.2))
    (pmInitSoft, [])

/-- Soft counterpart of `optLt`. -/
def optLtZ : Option Int → Option Int → Bool
  | some a, some b => a < b
  | some _, none => true
  | none, _ => false

/-- Final-state selection of `viterbi_decode_soft`. -/
def bestStateSoft (pm : List (Option Int)) : Nat :=
  (List.range' 1 (CONV_STATES - 1)).foldl
    (fun best s => if optLtZ (pm.getD s none) (pm.getD best none) then s
                   else best) 0

/-- The LLR pairs `(llr[2t], llr[2t+1])` the soft decoder loop reads. -/
def decodePairsSoft (llr : List Int) : List (Int × Int) :=
  (List.range (min (llr.length / 2) 256)).map
    (fun t => (llr.getD (2 * t) 0, llr.getD (2 * t + 1) 0))

/-- Function `viterbi_decode_soft` from `coding.c` (soft decision). -/
def viterbi_decode_soft (llr : List Int) : List Nat :=
  if llr.length / 2 < 1 then []
  else
    let fwd := viterbiForwardSoft (decodePairsSoft llr)
    traceback (bestStateSoft fwd.1) fwd.2

/-- The `Interleaver` struct of `coding.h`: dimensions plus the two
permutation tables built by `interleaver_init`. -/
structure Interleaver where
  rows : Nat
  cols : Nat
  perm : List Nat
  inv : List Nat

/-- Loop body of `interleaver_init`: the two assignments
`perm[r*cols + c] = c*rows + r` and `inv[c*rows + r] = r*cols + c`. -/
def initStep (rows cols r : Nat) (acc : List Nat × List Nat) (c : Nat) :
    List Nat × List Nat :=
  (acc.1.set (r * cols + c) (c * rows + r),
   acc.2.set (c * rows + r) (r * cols + c))

/-- Inner column loop of `interleaver_init` for one row `r`. -/
def initRow (rows cols : Nat) (acc : List Nat × List Nat) (r : Nat) :
    List Nat × List Nat :=
  (List.range cols).foldl (initStep rows cols r) acc

/-- The nested loop of `interleaver_init`: for each `(r, c)` in row-major
order perform `initStep` over zero-initialised arrays of length
`rows*cols`. -/
def initTables (rows cols : Nat) : List Nat × List Nat :=
  (List.range rows).foldl (initRow rows cols)
    (List.replicate (rows * cols) 0, List.replicate (rows * cols) 0)

/-- Function `interleaver_init` from `coding.c` (the model's allocation always
succeeds; the claims consider only successful construction). -/
def interleaver_init (rows cols : Nat) : Interleaver :=
  ⟨rows, cols, (initTables rows cols).1, (initTables rows cols).2⟩

/-- Function `interleaver_apply`: `out[perm[i]] = in[i]` for
`i < min n (rows*cols)`, over an output buffer of the input's length. -/
def interleaver_apply (itl : Interleaver) (input : List Nat) : List Nat :=
  (List.range (min input.length (itl.rows * itl.cols))).foldl
    (fun out i => out.set (itl.perm.getD i 0) (input.getD i 0))
    (List.replicate input.length 0)

/-- Function `interleaver_deapply`: `out[inv[i]] = in[i]` for
`i < min n (rows*cols)`. -/
def interleaver_deapply (itl : Interleaver) (input : List Nat) : List Nat :=
  (List.range (min input.length (itl.rows * itl.cols))).foldl
    (fun out i => out.set (itl.inv.getD i 0) (input.getD i 0))
    (List.replicate input.length 0)

/-- The original-order positions to which a burst of `len` consecutive
positions starting at `start` in the interleaved domain is carried by
`interleaver_deapply` (the deapply loop writes `in[i]` to `out[inv[i]]`). -/
def burstImage (itl : Interleaver) (start len : Nat) : List Nat :=
  (List.range len).map (fun t => itl.inv.getD (start + t) 0)

/-- The register sequence of `conv_encode` started from register value
`st`: `regFrom st x 0 = st`, and
`regFrom st x (i+1) = ((regFrom st x i << 1) | (x[i] & 1)) mod 2^CONV_K`
(the spec's full-K-bit register update). -/
def regFrom (st : Nat) (x : List Nat) : Nat → Nat
  | 0 => st
  | i + 1 => (2 * regFrom st x i + x.getD i 0 % 2) % 2 ^ CONV_K

/-- The expected output pair of the trellis transition whose full 7-bit
register value is `full` — the expression shared verbatim by `conv_encode`
(on the updated register) and by the decoders (on `(s << 1) | bit`). -/
def outPair (full : Nat) : Nat × Nat :=
  (popcount (full &&& CONV_G0) % 2, popcount (full &&& CONV_G1) % 2)

/-- Output bit `e0` of the decoder loops. -/
def e0of (full : Nat) : Nat := popcount (full &&& CONV_G0) % 2

/-- Output bit `e1` of the decoder loops. -/
def e1of (full : Nat) : Nat := popcount (full &&& CONV_G1) % 2

/-- The hard branch metric of `viterbi_decode` (Hamming distance between
the expected and received pair). -/
def bmOf (full r0 r1 : Nat) : Nat :=
  (if e0of full ≠ r0 then 1 else 0) + (if e1of full ≠ r1 then 1 else 0)

/-- The 6-bit decoder state reached from `σ` on input bit `b` —
`ns = ((σ << 1) | bit) & (CONV_STATES - 1)`. -/
def nextSigma (σ b : Nat) : Nat := (2 * σ + b % 2) % CONV_STATES

/-- The noiseless received pair stream, tracked on 6-bit states: at each
step the channel delivers exactly the output pair of the true
transition. -/
def truePairs (σ : Nat) : List Nat → List (Nat × Nat)
  | [] => []
  | b :: rest => outPair (2 * σ + b % 2) :: truePairs (nextSigma σ b) rest

/-- The bits the reference traceback reconstructs on a noiseless channel:
the high-order bit of each successive 6-bit destination state. -/
def delayedBits (σ : Nat) : List Nat → List Nat
  | [] => []
  | b :: rest =>
    nextSigma σ b >>> (CONV_K - 2) % 2 :: delayedBits (nextSigma σ b) rest

/-- The value of a bit string read MSB-first into an accumulator. -/
def natOfBitsFrom (a : Nat) (p : List Nat) : Nat :=
  p.foldl (fun a b => 2 * a + b % 2) a

/-- Invariant of the noiseless forward pass: the true state carries metric
0 and every other state is unreachable (`none` = `VITERBI_INF`) or carries
a positive metric. -/
def GoodPM (σ : Nat) (pm : List (Option Nat)) : Prop :=
  pm.length = CONV_STATES ∧
  pm.getD σ none = some 0 ∧
  ∀ s, s < CONV_STATES → s ≠ σ →
    pm.getD s none = none ∨ ∃ m, pm.getD s none = some m ∧ 1 ≤ m

/-- Invariant of the inner transition fold at one time step: any metric
written to the true destination `target` is positive unless it is the true
transition's 0 (in which case the survivor entry is the true predecessor
`σ`); any metric at another state is positive. -/
def StepInv (σ target : Nat) (acc : List (Option Nat) × List Nat) : Prop :=
  acc.1.length = CONV_STATES ∧ acc.2.length = CONV_STATES ∧
  (∀ v, acc.1.getD target none = some v →
    1 ≤ v ∨ (v = 0 ∧ acc.2.getD target 0 = σ)) ∧
  ∀ s, s < CONV_STATES → s ≠ target →
    ∀ v, acc.1.getD s none = some v → 1 ≤ v

/-- The claim's saturated LLR construction: `+10.0` where the coded bit is
0 and `-10.0` where it is 1 (exact in double precision, modelled in ℤ). -/
def toLLR (b : Nat) : Int := if b = 0 then 10 else -10

/-- The affine correspondence between hard and soft path metrics at time
`t`: every agreement contributes `+10` to the soft branch score and every
disagreement `-10`, so soft cost = `20·(hard cost) - 20·t`. -/
def phiT (t : Nat) (m : Nat) : Int := 20 * m - 20 * t

/-! ### Generic list helpers -/

theorem getD_set_self {α : Type} (l : List α) (i : Nat) (a d : α)
    (h : i < l.length) : (l.set i a).getD i d = a := by
  simp [List.getD_eq_getElem?_getD, List.getElem?_set_eq_of_lt, h]

theorem getD_set_of_ne {α : Type} (l : List α) (i j : Nat) (a d : α)
    (h : i ≠ j) : (l.set i a).getD j d = l.getD j d := by
  simp [List.getD_eq_getElem?_getD, List.getElem?_set_ne, h]

theorem getD_replicate {α : Type} (n i : Nat) (x d : α) (h : i < n) :
    (List.replicate n x).getD i d = x := by
  simp [List.getD_eq_getElem?_getD, List.getElem?_replicate, h]

/-! ### Characterisation of the `interleaver_init` tables -/

theorem idx_lt {r c R C : Nat} (hr : r < R) (hc : c < C) :
    r * C + c < R * C :=
  calc r * C + c < r * C + C := by omega
  _ = (r + 1) * C := by ring
  _ ≤ R * C := Nat.mul_le_mul_right C hr

theorem mul_add_mod_self {R q r : Nat} (hr : r < R) : (R * q + r) % R = r := by
  rw [Nat.mul_add_mod, Nat.mod_eq_of_lt hr]

theorem mul_add_div_self {R q r : Nat} (hr : r < R) : (R * q + r) / R = q := by
  rw [Nat.mul_add_div (by omega), Nat.div_eq_of_lt hr, Nat.add_zero]

theorem range_concat (n : Nat) : List.range (n + 1) = List.range n ++ [n] :=
  List.range_succ n

theorem initStep_fst (rows cols r : Nat) (acc : List Nat × List Nat)
    (c : Nat) :
    (initStep rows cols r acc c).1 = acc.1.set (r * cols + c) (c * rows + r) :=
  rfl

theorem initStep_snd (rows cols r : Nat) (acc : List Nat × List Nat)
    (c : Nat) :
    (initStep rows cols r acc c).2 = acc.2.set (c * rows + r) (r * cols + c) :=
  rfl

/-- Behaviour of the inner column loop of `interleaver_init`, truncated to
the first `k ≤ cols` columns: positions `r*cols + c` (`c < k`) of the first
table and `c*rows + r` (`c < k`) of the second are written, everything else
kept. -/
theorem initRow_spec (rows cols r : Nat) (hr : r < rows) :
    ∀ k, k ≤ cols → ∀ p v : List Nat,
    p.length = rows * cols → v.length = rows * cols →
    ((List.range k).foldl (initStep rows cols r) (p, v)).1.length
        = rows * cols ∧
    ((List.range k).foldl (initStep rows cols r) (p, v)).2.length
        = rows * cols ∧
    (∀ j, r * cols ≤ j → j < r * cols + k →
      ((List.range k).foldl (initStep rows cols r) (p, v)).1.getD j 0
        = (j - r * cols) * rows + r) ∧
    (∀ j, ¬ (r * cols ≤ j ∧ j < r * cols + k) →
      ((List.range k).foldl (initStep rows cols r) (p, v)).1.getD j 0
        = p.getD j 0) ∧
    (∀ j, j % rows = r → j / rows < k →
      ((List.range k).foldl (initStep rows cols r) (p, v)).2.getD j 0
        = r * cols + j / rows) ∧
    (∀ j, ¬ (j % rows = r ∧ j / rows < k) →
      ((List.range k).foldl (initStep rows cols r) (p, v)).2.getD j 0
        = v.getD j 0) := by
  intro k
  induction k with
  | zero =>
    intro _ p v hp hv
    refine ⟨hp, hv, ?_, ?_, ?_, ?_⟩ <;> intro j <;> simp <;> omega
  | succ k ih =>
    intro hk p v hp hv
    have hk' : k ≤ cols := by omega
    have hkc : k < cols := by omega
    obtain ⟨L1, L2, P1, P2, V1, V2⟩ := ih hk' p v hp hv
    rw [range_concat, List.foldl_append]
    set q := (List.range k).foldl (initStep rows cols r) (p, v) with hq
    simp only [List.foldl_cons, List.foldl_nil]
    have hpidx : r * cols + k < rows * cols := idx_lt hr hkc
    have hvidx : k * rows + r < rows * cols := by
      have h := idx_lt hkc hr
      calc k * rows + r < cols * rows := h
      _ = rows * cols := Nat.mul_comm cols rows
    refine ⟨?_, ?_, ?_, ?_, ?_, ?_⟩
    · rw [initStep_fst, List.length_set]
      exact L1
    · rw [initStep_snd, List.length_set]
      exact L2
    · intro j hj1 hj2
      rw [initStep_fst]
      by_cases hje : j = r * cols + k
      · subst hje
        rw [getD_set_self _ _ _ _ (by omega)]
        have hsub : r * cols + k - r * cols = k := by omega
        rw [hsub]
      · rw [getD_set_of_ne _ _ _ _ _ (by omega)]
        exact P1 j hj1 (by omega)
    · intro j hj
      rw [initStep_fst, getD_set_of_ne _ _ _ _ _ (by omega)]
      exact P2 j (by omega)
    · intro j hjm hjd
      rw [initStep_snd]
      by_cases hje : j / rows = k
      · have h := Nat.div_add_mod j rows
        rw [hje, hjm] at h
        have hjval : j = k * rows + r := by rw [← h, Nat.mul_comm]
        rw [hjval, getD_set_self _ _ _ _ (by omega),
          Nat.mul_comm k rows, mul_add_div_self hr]
      · have hne : k * rows + r ≠ j := by
          intro hcon
          have hdk : j / rows = k := by
            rw [← hcon, Nat.mul_comm k rows, mul_add_div_self hr]
          omega
        rw [getD_set_of_ne _ _ _ _ _ hne]
        exact V1 j hjm (by omega)
    · intro j hj
      rw [initStep_snd]
      have hne : k * rows + r ≠ j := by
        intro hcon
        have h1 : j % rows = r := by
          rw [← hcon, Nat.mul_comm k rows, mul_add_mod_self hr]
        have h2 : j / rows = k := by
          rw [← hcon, Nat.mul_comm k rows, mul_add_div_self hr]
        exact hj ⟨h1, by omega⟩
      rw [getD_set_of_ne _ _ _ _ _ hne]
      exact V2 j (fun hc => hj ⟨hc.1, by omega⟩)

/-- Behaviour of the outer row loop of `interleaver_init`, truncated to the
first `K ≤ rows` rows. -/
theorem initTables_truncated (rows cols : Nat) :
    ∀ K, K ≤ rows →
    ((List.range K).foldl (initRow rows cols)
      (List.replicate (rows * cols) 0,
       List.replicate (rows * cols) 0)).1.length = rows * cols ∧
    ((List.range K).foldl (initRow rows cols)
      (List.replicate (rows * cols) 0,
       List.replicate (rows * cols) 0)).2.length = rows * cols ∧
    (∀ j, j < K * cols →
      ((List.range K).foldl (initRow rows cols)
        (List.replicate (rows * cols) 0,
         List.replicate (rows * cols) 0)).1.getD j 0
        = j % cols * rows + j / cols) ∧
    (∀ j, j % rows < K → j / rows < cols →
      ((List.range K).foldl (initRow rows cols)
        (List.replicate (rows * cols) 0,
         List.replicate (rows * cols) 0)).2.getD j 0
        = j % rows * cols + j / rows) := by
  intro K
  induction K with
  | zero =>
    intro _
    refine ⟨by simp, by simp, ?_, ?_⟩ <;> intro j <;> omega
  | succ K ih =>
    intro hK
    have hK' : K ≤ rows := by omega
    have hKr : K < rows := by omega
    obtain ⟨L1, L2, P, V⟩ := ih hK'
    rw [range_concat, List.foldl_append]
    set q := (List.range K).foldl (initRow rows cols)
      (List.replicate (rows * cols) 0, List.replicate (rows * cols) 0)
      with hq
    simp only [List.foldl_cons, List.foldl_nil]
    have hrow := initRow_spec rows cols K hKr cols le_rfl q.1 q.2 L1 L2
    rw [Prod.mk.eta] at hrow
    obtain ⟨R1, R2, W1, W2, W3, W4⟩ := hrow
    have hmul : (K + 1) * cols = K * cols + cols := by ring
    have hrw1 : (initRow rows cols q K).1
        = ((List.range cols).foldl (initStep rows cols K) q).1 := rfl
    have hrw2 : (initRow rows cols q K).2
        = ((List.range cols).foldl (initStep rows cols K) q).2 := rfl
    refine ⟨R1, R2, ?_, ?_⟩
    · intro j hj
      rw [hmul] at hj
      show (initRow rows cols q K).1.getD j 0 = j % cols * rows + j / cols
      rw [hrw1]
      by_cases hlow : j < K * cols
      · rw [W2 j (by omega)]
        exact P j hlow
      · obtain ⟨d, hd, hdlt⟩ : ∃ d, j = K * cols + d ∧ d < cols :=
          ⟨j - K * cols, by omega, by omega⟩
        have hmod : j % cols = d := by
          rw [hd, Nat.mul_comm K cols]
          exact mul_add_mod_self hdlt
        have hdiv : j / cols = K := by
          rw [hd, Nat.mul_comm K cols]
          exact mul_add_div_self hdlt
        have hsub : j - K * cols = d := by omega
        rw [W1 j (by omega) (by omega), hsub, hmod, hdiv]
    · intro j hjm hjd
      show (initRow rows cols q K).2.getD j 0 = j % rows * cols + j / rows
      rw [hrw2]
      by_cases hlow : j % rows < K
      · rw [W4 j (by omega)]
        exact V j hlow hjd
      · have hjm' : j % rows = K := by omega
        rw [W3 j hjm' hjd, hjm']

/-- The permutation tables produced by `interleaver_init`:
`perm[j] = (j mod cols)*rows + j div cols` and
`inv[j] = (j mod rows)*cols + j div rows` on `[0, rows*cols)`. -/
theorem initTables_spec (rows cols : Nat) :
    (initTables rows cols).1.length = rows * cols ∧
    (initTables rows cols).2.length = rows * cols ∧
    (∀ j, j < rows * cols →
      (initTables rows cols).1.getD j 0 = j % cols * rows + j / cols) ∧
    (∀ j, j < rows * cols →
      (initTables rows cols).2.getD j 0 = j % rows * cols + j / rows) := by
  obtain ⟨L1, L2, P, V⟩ := initTables_truncated rows cols rows le_rfl
  refine ⟨L1, L2, fun j hj => P j hj, fun j hj => ?_⟩
  have hrows : 0 < rows := by
    rcases Nat.eq_zero_or_pos rows with h | h
    · subst h; simp at hj
    · exact h
  exact V j (Nat.mod_lt j hrows)
    ((Nat.div_lt_iff_lt_mul hrows).2 (by rw [Nat.mul_comm cols rows]; exact hj))

theorem perm_getD {rows cols j : Nat} (hj : j < rows * cols) :
    (interleaver_init rows cols).perm.getD j 0
      = j % cols * rows + j / cols :=
  (initTables_spec rows cols).2.2.1 j hj

theorem inv_getD {rows cols j : Nat} (hj : j < rows * cols) :
    (interleaver_init rows cols).inv.getD j 0
      = j % rows * cols + j / rows :=
  (initTables_spec rows cols).2.2.2 j hj

theorem perm_length (rows cols : Nat) :
    (interleaver_init rows cols).perm.length = rows * cols :=
  (initTables_spec rows cols).1

theorem inv_length (rows cols : Nat) :
    (interleaver_init rows cols).inv.length = rows * cols :=
  (initTables_spec rows cols).2.1

theorem cols_pos_of_lt {rows cols j : Nat} (hj : j < rows * cols) :
    0 < cols := by
  rcases Nat.eq_zero_or_pos cols with h | h
  · subst h; simp at hj
  · exact h

theorem rows_pos_of_lt {rows cols j : Nat} (hj : j < rows * cols) :
    0 < rows := by
  rcases Nat.eq_zero_or_pos rows with h | h
  · subst h; simp at hj
  · exact h

theorem perm_getD_lt {rows cols j : Nat} (hj : j < rows * cols) :
    (interleaver_init rows cols).perm.getD j 0 < rows * cols := by
  rw [perm_getD hj]
  have hc : 0 < cols := cols_pos_of_lt hj
  have h1 : j % cols < cols := Nat.mod_lt j hc
  have h2 : j / cols < rows := (Nat.div_lt_iff_lt_mul hc).2 hj
  calc j % cols * rows + j / cols < cols * rows := idx_lt h1 h2
  _ = rows * cols := Nat.mul_comm cols rows

theorem inv_getD_lt {rows cols j : Nat} (hj : j < rows * cols) :
    (interleaver_init rows cols).inv.getD j 0 < rows * cols := by
  rw [inv_getD hj]
  have hr : 0 < rows := rows_pos_of_lt hj
  have h1 : j % rows < rows := Nat.mod_lt j hr
  have h2 : j / rows < cols :=
    (Nat.div_lt_iff_lt_mul hr).2 (by rw [Nat.mul_comm cols rows]; exact hj)
  exact idx_lt h1 h2

theorem inv_perm_getD {rows cols j : Nat} (hj : j < rows * cols) :
    (interleaver_init rows cols).inv.getD
      ((interleaver_init rows cols).perm.getD j 0) 0 = j := by
  rw [perm_getD hj, inv_getD (by rw [← perm_getD hj]; exact perm_getD_lt hj)]
  have hc : 0 < cols := cols_pos_of_lt hj
  have h2 : j / cols < rows := (Nat.div_lt_iff_lt_mul hc).2 hj
  have hmod : (j % cols * rows + j / cols) % rows = j / cols := by
    rw [Nat.mul_comm (j % cols) rows]
    exact mul_add_mod_self h2
  have hdiv : (j % cols * rows + j / cols) / rows = j % cols := by
    rw [Nat.mul_comm (j % cols) rows]
    exact mul_add_div_self h2
  rw [hmod, hdiv, Nat.mul_comm (j / cols) cols]
  exact Nat.div_add_mod j cols

theorem perm_inv_getD {rows cols j : Nat} (hj : j < rows * cols) :
    (interleaver_init rows cols).perm.getD
      ((interleaver_init rows cols).inv.getD j 0) 0 = j := by
  rw [inv_getD hj, perm_getD (by rw [← inv_getD hj]; exact inv_getD_lt hj)]
  have hr : 0 < rows := rows_pos_of_lt hj
  have h2 : j / rows < cols :=
    (Nat.div_lt_iff_lt_mul hr).2 (by rw [Nat.mul_comm cols rows]; exact hj)
  have hmod : (j % rows * cols + j / rows) % cols = j / rows := by
    rw [Nat.mul_comm (j % rows) cols]
    exact mul_add_mod_self h2
  have hdiv : (j % rows * cols + j / rows) / cols = j % rows := by
    rw [Nat.mul_comm (j % rows) cols]
    exact mul_add_div_self h2
  rw [hmod, hdiv, Nat.mul_comm (j / rows) rows]
  exact Nat.div_add_mod j rows

/-! ### The scatter loops of `interleaver_apply` / `interleaver_deapply` -/

/-- A fold of `set`s keeps the buffer length. -/
theorem scatter_length (f g : Nat → Nat) (m : Nat) (out0 : List Nat) :
    ((List.range m).foldl (fun out i => out.set (f i) (g i)) out0).length
      = out0.length := by
  induction m with
  | zero => simp
  | succ m ih =>
    rw [range_concat, List.foldl_append]
    simp [ih]

/-- After scattering `g i` to position `f i` for `i < m`, position `f i`
holds `g i`, provided `f` is injective below `m` and the write lands in
range. -/
theorem scatter_getD (f g : Nat → Nat) (m : Nat) (out0 : List Nat)
    (i : Nat) (hi : i < m)
    (hinj : ∀ a b, a < m → b < m → f a = f b → a = b)
    (hb : f i < out0.length) :
    ((List.range m).foldl (fun out i => out.set (f i) (g i)) out0).getD
      (f i) 0 = g i := by
  induction m with
  | zero => omega
  | succ m ih =>
    rw [range_concat, List.foldl_append]
    simp only [List.foldl_cons, List.foldl_nil]
    by_cases him : i = m
    · subst him
      exact getD_set_self _ _ _ _ (by rw [scatter_length]; exact hb)
    · have hi' : i < m := by omega
      have hne : f m ≠ f i := by
        intro hcon
        exact him ((hinj m i (by omega) (by omega) hcon).symm)
      rw [getD_set_of_ne _ _ _ _ _ hne]
      exact ih hi' (fun a b ha hb' => hinj a b (by omega) (by omega))

theorem apply_length (itl : Interleaver) (input : List Nat) :
    (interleaver_apply itl input).length = input.length := by
  rw [interleaver_apply, scatter_length, List.length_replicate]

theorem deapply_length (itl : Interleaver) (input : List Nat) :
    (interleaver_deapply itl input).length = input.length := by
  rw [interleaver_deapply, scatter_length, List.length_replicate]

/-- Reading `interleaver_apply`'s output at `perm[i]` returns `input[i]`,
for a table built by `interleaver_init` and a full-size input. -/
theorem apply_getD {rows cols : Nat} (input : List Nat) (i : Nat)
    (hlen : input.length = rows * cols) (hi : i < rows * cols) :
    (interleaver_apply (interleaver_init rows cols) input).getD
      ((interleaver_init rows cols).perm.getD i 0) 0 = input.getD i 0 := by
  rw [interleaver_apply]
  have hrows : (interleaver_init rows cols).rows = rows := rfl
  have hcols : (interleaver_init rows cols).cols = cols := rfl
  rw [hrows, hcols, hlen, Nat.min_self]
  exact scatter_getD (fun k => (interleaver_init rows cols).perm.getD k 0)
    (fun k => input.getD k 0) (rows * cols) _ i hi
    (fun a b ha hb hfab => by
      have h1 := @inv_perm_getD rows cols a ha
      have h2 := @inv_perm_getD rows cols b hb
      have hfab2 : (interleaver_init rows cols).perm.getD a 0
          = (interleaver_init rows cols).perm.getD b 0 := hfab
      rw [← h1, ← h2, hfab2])
    (by rw [List.length_replicate]; exact perm_getD_lt hi)

/-- Reading `interleaver_deapply`'s output at `inv[i]` returns `input[i]`. -/
theorem deapply_getD {rows cols : Nat} (input : List Nat) (i : Nat)
    (hlen : input.length = rows * cols) (hi : i < rows * cols) :
    (interleaver_deapply (interleaver_init rows cols) input).getD
      ((interleaver_init rows cols).inv.getD i 0) 0 = input.getD i 0 := by
  rw [interleaver_deapply]
  have hrows : (interleaver_init rows cols).rows = rows := rfl
  have hcols : (interleaver_init rows cols).cols = cols := rfl
  rw [hrows, hcols, hlen, Nat.min_self]
  exact scatter_getD (fun k => (interleaver_init rows cols).inv.getD k 0)
    (fun k => input.getD k 0) (rows * cols) _ i hi
    (fun a b ha hb hfab => by
      have h1 := @perm_inv_getD rows cols a ha
      have h2 := @perm_inv_getD rows cols b hb
      have hfab2 : (interleaver_init rows cols).inv.getD a 0
          = (interleaver_init rows cols).inv.getD b 0 := hfab
      rw [← h1, ← h2, hfab2])
    (by rw [List.length_replicate]; exact inv_getD_lt hi)

theorem burstImage_getD (itl : Interleaver) (start len t : Nat)
    (ht : t < len) :
    (burstImage itl start len).getD t 0 = itl.inv.getD (start + t) 0 := by
  rw [burstImage, List.getD_eq_getElem _ 0 (by simpa using ht)]
  simp [ht]

/-- C9: after `interleaver_init(rows, cols)`, `perm[r*cols + c] = c*rows + r`
and `inv[c*rows + r] = r*cols + c` for every row `r < rows` and column
`c < cols`, and `perm` and `inv` are mutually inverse bijections on
`[0, rows*cols)`. -/
theorem c9_permutation_tables (rows cols : Nat) :
    (∀ r, r < rows → ∀ c, c < cols →
      (interleaver_init rows cols).perm.getD (r * cols + c) 0
        = c * rows + r ∧
      (interleaver_init rows cols).inv.getD (c * rows + r) 0
        = r * cols + c) ∧
    (∀ i, i < rows * cols →
      (interleaver_init rows cols).perm.getD i 0 < rows * cols ∧
      (interleaver_init rows cols).inv.getD i 0 < rows * cols ∧
      (interleaver_init rows cols).inv.getD
        ((interleaver_init rows cols).perm.getD i 0) 0 = i ∧
      (interleaver_init rows cols).perm.getD
        ((interleaver_init rows cols).inv.getD i 0) 0 = i) := by
  constructor
  · intro r hr c hc
    have hidx1 : r * cols + c < rows * cols := idx_lt hr hc
    have hidx2 : c * rows + r < rows * cols := by
      have h := idx_lt hc hr
      calc c * rows + r < cols * rows := h
      _ = rows * cols := Nat.mul_comm cols rows
    constructor
    · rw [perm_getD hidx1]
      have hmod : (r * cols + c) % cols = c := by
        rw [Nat.mul_comm r cols]; exact mul_add_mod_self hc
      have hdiv : (r * cols + c) / cols = r := by
        rw [Nat.mul_comm r cols]; exact mul_add_div_self hc
      rw [hmod, hdiv]
    · rw [inv_getD hidx2]
      have hmod : (c * rows + r) % rows = r := by
        rw [Nat.mul_comm c rows]; exact mul_add_mod_self hr
      have hdiv : (c * rows + r) / rows = c := by
        rw [Nat.mul_comm c rows]; exact mul_add_div_self hr
      rw [hmod, hdiv]
  · intro i hi
    exact ⟨perm_getD_lt hi, inv_getD_lt hi, inv_perm_getD hi,
      perm_inv_getD hi⟩

theorem c9_permutation_tables_witness :
    (2 : Nat) < 8 ∧ (3 : Nat) < 6 ∧ (17 : Nat) < 8 * 6 ∧
    (interleaver_init 8 6).perm.getD (2 * 6 + 3) 0 = 3 * 8 + 2 ∧
    (interleaver_init 8 6).inv.getD
      ((interleaver_init 8 6).perm.getD 17 0) 0 = 17 :=
  ⟨by decide, by decide, by decide,
   ((c9_permutation_tables 8 6).1 2 (by decide) 3 (by decide)).1,
   ((c9_permutation_tables 8 6).2 17 (by decide)).2.2.1⟩

/-- C5: for `rows, cols ≥ 1` and any sequence of length exactly
`rows*cols`, `interleaver_deapply` after `interleaver_apply` with the same
interleaver is the identity. -/
theorem c5_interleaver_roundtrip (rows cols : Nat) (x : List Nat)
    (hrows : 1 ≤ rows) (hcols : 1 ≤ cols)
    (hlen : x.length = rows * cols) :
    interleaver_deapply (interleaver_init rows cols)
      (interleaver_apply (interleaver_init rows cols) x) = x := by
  have hy : (interleaver_apply (interleaver_init rows cols) x).length
      = x.length := apply_length _ _
  apply List.ext_getElem
  · rw [deapply_length, hy]
  · intro i h1 h2
    have hi : i < rows * cols := by omega
    have hperm : (interleaver_init rows cols).perm.getD i 0 < rows * cols :=
      perm_getD_lt hi
    have e1 := @deapply_getD rows cols
      (interleaver_apply (interleaver_init rows cols) x)
      ((interleaver_init rows cols).perm.getD i 0) (by omega) hperm
    rw [inv_perm_getD hi] at e1
    have e2 := @apply_getD rows cols x i hlen hi
    rw [← List.getD_eq_getElem _ 0 h1, ← List.getD_eq_getElem _ 0 h2,
      e1, e2]

theorem c5_interleaver_roundtrip_witness :
    (1 : Nat) ≤ 4 ∧ (1 : Nat) ≤ 6 ∧
    ((List.range 24).map (fun i => i % 2)).length = 4 * 6 ∧
    interleaver_deapply (interleaver_init 4 6)
      (interleaver_apply (interleaver_init 4 6)
        ((List.range 24).map (fun i => i % 2)))
      = (List.range 24).map (fun i => i % 2) :=
  ⟨by decide, by decide, by simp,
   c5_interleaver_roundtrip 4 6 _ (by decide) (by decide) (by simp)⟩

/-- C6 counterexample: in the 8×6 scenario, the burst at interleaved
positions 0..5 lands at original positions 0, 6, 12, 18, 24, 30 — adjacent
pairs are exactly 6 apart, so they are not pairwise separated by at least
7 as the claim states. -/
theorem c6_counterexample :
    ¬ List.Pairwise (fun a b => a ≠ b ∧ 7 ≤ Nat.dist a b)
      (burstImage (interleaver_init 8 6) 0 6) := by decide

/-- C6 amended: a contiguous run of `len ≤ rows` positions in the
interleaved domain maps under deapply to pairwise distinct original-order
positions, any two of which are separated by at least
`min cols ((rows - len + 1) * cols - 1)` — in the 8×6 scenario with a
6-long burst this separation is `min 6 17 = 6` (= cols), not 7. -/
theorem c6_burst_dispersion (rows cols start len t1 t2 : Nat)
    (hlen : len ≤ rows) (hburst : start + len ≤ rows * cols)
    (ht12 : t1 < t2) (ht2 : t2 < len) :
    (burstImage (interleaver_init rows cols) start len).getD t1 0
      ≠ (burstImage (interleaver_init rows cols) start len).getD t2 0 ∧
    min cols ((rows - len + 1) * cols - 1) ≤
      Nat.dist
        ((burstImage (interleaver_init rows cols) start len).getD t1 0)
        ((burstImage (interleaver_init rows cols) start len).getD t2 0) := by
  have hk1 : start + t1 < rows * cols := by omega
  have hk2 : start + t2 < rows * cols := by omega
  rw [burstImage_getD _ _ _ _ (by omega), burstImage_getD _ _ _ _ ht2,
    inv_getD hk1, inv_getD hk2]
  have hrpos : 0 < rows := rows_pos_of_lt hk2
  have hcpos : 0 < cols := cols_pos_of_lt hk2
  set k1 := start + t1 with hk1def
  set k2 := start + t2 with hk2def
  set r1 := k1 % rows with hr1def
  set q1 := k1 / rows with hq1def
  have hr1lt : r1 < rows := Nat.mod_lt _ hrpos
  have hk1eq : rows * q1 + r1 = k1 := Nat.div_add_mod k1 rows
  set d := t2 - t1 with hddef
  have hd1 : 1 ≤ d := by omega
  have hdrows : d < rows := by omega
  by_cases hcase : r1 + d < rows
  · have hk2eq : k2 = rows * q1 + (r1 + d) := by omega
    have hm2 : k2 % rows = r1 + d := by
      rw [hk2eq]; exact mul_add_mod_self hcase
    have hq2 : k2 / rows = q1 := by
      rw [hk2eq]; exact mul_add_div_self hcase
    rw [hm2, hq2]
    have hexp : (r1 + d) * cols = r1 * cols + d * cols := Nat.add_mul r1 d cols
    have hdc : 1 ≤ d * cols := by
      calc 1 = 1 * 1 := rfl
      _ ≤ d * cols := Nat.mul_le_mul hd1 hcpos
    have hcd : cols ≤ d * cols := Nat.le_mul_of_pos_left cols (by omega)
    refine ⟨fun hcon => by omega, ?_⟩
    have hmin : min cols ((rows - len + 1) * cols - 1) ≤ cols :=
      Nat.min_le_left _ _
    have hdist : Nat.dist (r1 * cols + q1) ((r1 + d) * cols + q1)
        = d * cols := by
      simp [Nat.dist]; omega
    omega
  · have hsplit : r1 + d - rows < rows := by omega
    have hmulsucc : rows * (q1 + 1) = rows * q1 + rows := by ring
    have hk2eq : k2 = rows * (q1 + 1) + (r1 + d - rows) := by omega
    have hm2 : k2 % rows = r1 + d - rows := by
      rw [hk2eq]; exact mul_add_mod_self hsplit
    have hq2 : k2 / rows = q1 + 1 := by
      rw [hk2eq]; exact mul_add_div_self hsplit
    rw [hm2, hq2]
    have hcols2 : 2 ≤ cols := by
      by_contra hc
      have hcle : cols ≤ 1 := by omega
      have h1 : rows * cols ≤ rows * 1 := Nat.mul_le_mul_left rows hcle
      have h1' : rows * cols ≤ rows := by simpa using h1
      omega
    have hsum : (r1 + d - rows) + (rows - d) = r1 := by omega
    have hexp : r1 * cols = (r1 + d - rows) * cols + (rows - d) * cols := by
      rw [← Nat.add_mul, hsum]
    have hrd1 : 1 ≤ rows - d := by omega
    have hprod : 2 ≤ (rows - d) * cols := by
      calc 2 = 1 * 2 := rfl
      _ ≤ (rows - d) * cols := Nat.mul_le_mul hrd1 hcols2
    have hbound : (rows - len + 1) * cols ≤ (rows - d) * cols :=
      Nat.mul_le_mul_right cols (by omega)
    refine ⟨fun hcon => by omega, ?_⟩
    have hdist : Nat.dist (r1 * cols + q1) ((r1 + d - rows) * cols + (q1 + 1))
        = (rows - d) * cols - 1 := by
      simp [Nat.dist]; omega
    have hminr : min cols ((rows - len + 1) * cols - 1)
        ≤ (rows - len + 1) * cols - 1 := Nat.min_le_right _ _
    omega

theorem c6_burst_dispersion_witness :
    (6 : Nat) ≤ 8 ∧ (0 : Nat) + 6 ≤ 8 * 6 ∧ (0 : Nat) < 1 ∧ (1 : Nat) < 6 ∧
    ((burstImage (interleaver_init 8 6) 0 6).getD 0 0
        ≠ (burstImage (interleaver_init 8 6) 0 6).getD 1 0 ∧
      min 6 ((8 - 6 + 1) * 6 - 1) ≤
        Nat.dist ((burstImage (interleaver_init 8 6) 0 6).getD 0 0)
          ((burstImage (interleaver_init 8 6) 0 6).getD 1 0)) :=
  ⟨by decide, by decide, by decide, by decide,
   c6_burst_dispersion 8 6 0 6 0 1 (by decide) (by decide) (by decide)
     (by decide)⟩

/-! ### Decode length and capacity truncation -/

theorem traceback_length (st : Nat) (tbl : List (List Nat)) :
    (traceback st tbl).length = tbl.length := by
  induction tbl generalizing st with
  | nil => rfl
  | cons surv rest ih => simp [traceback, ih]

theorem viterbiFold_surv_length (pairs : List (Nat × Nat))
    (acc : List (Option Nat) × List (List Nat)) :
    (pairs.foldl
      (fun acc p =>
        let st := viterbiStep acc.1 p.1 p.2
        (st.1, st.2 :: acc.2)) acc).2.length
      = acc.2.length + pairs.length := by
  induction pairs generalizing acc with
  | nil => simp
  | cons p rest ih =>
    simp only [List.foldl_cons]
    rw [ih]
    simp
    omega

theorem viterbiForward_surv_length (pairs : List (Nat × Nat)) :
    (viterbiForward pairs).2.length = pairs.length := by
  rw [viterbiForward, viterbiFold_surv_length]
  simp

theorem decodePairs_length (coded : List Nat) :
    (decodePairs coded).length = min (coded.length / 2) 256 := by
  simp [decodePairs]

theorem viterbi_decode_length (coded : List Nat)
    (h : 1 ≤ coded.length / 2) :
    (viterbi_decode coded).length = min (coded.length / 2) 256 := by
  rw [viterbi_decode, if_neg (by omega)]
  rw [traceback_length, viterbiForward_surv_length, decodePairs_length]

/-- C3 counterexample: on a coded input of length 514 (all zeros) the
decoder emits 256 bits, not `514 / 2 = 257`. -/
theorem c3_counterexample :
    (viterbi_decode (List.replicate 514 0)).length ≠ 514 / 2 := by
  have h := viterbi_decode_length (List.replicate 514 0)
    (by rw [List.length_replicate]; omega)
  rw [List.length_replicate] at h
  omega

/-- C3 amended: for every even `nCoded` with `2 ≤ nCoded ≤ 512` (the
implementation's capacity) and any coded input of that length,
`viterbi_decode` produces exactly `nCoded/2` decoded bits; beyond 512 the
output is truncated to 256 bits (see C4). -/
theorem c3_decoded_length (coded : List Nat)
    (heven : coded.length % 2 = 0) (h2 : 2 ≤ coded.length)
    (h512 : coded.length ≤ 512) :
    (viterbi_decode coded).length = coded.length / 2 := by
  rw [viterbi_decode_length coded (by omega)]
  omega

theorem c3_decoded_length_witness :
    ((List.replicate 8 (1 : Nat)).length % 2 = 0 ∧
     2 ≤ (List.replicate 8 (1 : Nat)).length ∧
     (List.replicate 8 (1 : Nat)).length ≤ 512) ∧
    (viterbi_decode (List.replicate 8 1)).length
      = (List.replicate 8 (1 : Nat)).length / 2 :=
  ⟨⟨by decide, by decide, by decide⟩,
   c3_decoded_length _ (by decide) (by decide) (by decide)⟩

theorem getD_take {α : Type} (l : List α) (m i : Nat) (d : α) (h : i < m) :
    (l.take m).getD i d = l.getD i d := by
  simp [List.getD_eq_getElem?_getD, List.getElem?_take, h]

/-- C4: when `nCoded/2` exceeds the 256-entry survivor capacity,
`viterbi_decode` silently decodes only the first 512 coded bits: the output
equals the decode of that prefix and has exactly 256 bits; no error is
signalled (the function still returns normally). -/
theorem c4_capacity_truncation (coded : List Nat)
    (h : 256 < coded.length / 2) :
    viterbi_decode coded = viterbi_decode (coded.take 512) ∧
    (viterbi_decode coded).length = 256 := by
  have hlen : 514 ≤ coded.length := by omega
  have htake : (coded.take 512).length = 512 := by
    rw [List.length_take]
    omega
  have hpairs : decodePairs coded = decodePairs (coded.take 512) := by
    rw [decodePairs, decodePairs, htake]
    have hm1 : min (coded.length / 2) 256 = 256 := by omega
    have hm2 : min (512 / 2) 256 = 256 := by omega
    rw [hm1, hm2]
    refine List.map_congr_left ?_
    intro t ht
    have ht' : t < 256 := by simpa using ht
    rw [getD_take _ _ _ _ (by omega), getD_take _ _ _ _ (by omega)]
  constructor
  · rw [viterbi_decode, viterbi_decode, if_neg (by omega),
      if_neg (by rw [htake]; omega), hpairs]
  · rw [viterbi_decode_length coded (by omega)]
    omega

theorem c4_capacity_truncation_witness :
    256 < (List.replicate 600 (0 : Nat)).length / 2 ∧
    (viterbi_decode (List.replicate 600 0)
        = viterbi_decode ((List.replicate 600 0).take 512) ∧
      (viterbi_decode (List.replicate 600 0)).length = 256) :=
  ⟨by rw [List.length_replicate]; omega, c4_capacity_truncation _
    (by rw [List.length_replicate]; omega)⟩

/-! ### Final-state selection (argmin with lowest-index tie-break) -/

theorem optLt_irrefl (a : Option Nat) : optLt a a = false := by
  cases a <;> simp [optLt]

theorem optLt_trans {a b c : Option Nat} (h1 : optLt a b = true)
    (h2 : optLt b c = true) : optLt a c = true := by
  cases a <;> cases b <;> cases c <;> simp_all [optLt] <;> omega

theorem optLt_trans_not {a b c : Option Nat} (h1 : optLt a b = true)
    (h2 : optLt c b = false) : optLt a c = true := by
  cases a <;> cases b <;> cases c <;> simp_all [optLt] <;> omega

theorem range'_one_concat (n : Nat) :
    List.range' 1 (n + 1) = List.range' 1 n ++ [n + 1] := by
  simpa [Nat.add_comm] using @List.range'_concat 1 1 n

/-- The final-state scan of `viterbi_decode`, truncated to `s = 1..K`:
the running best state has a metric no larger than every scanned state's,
and strictly smaller than that of every scanned state with a lower index. -/
theorem bestStateAux_spec (pm : List (Option Nat)) :
    ∀ K,
    ((List.range' 1 K).foldl
      (fun best s => if optLt (pm.getD s none) (pm.getD best none) then s
                     else best) 0) ≤ K ∧
    (∀ s, s ≤ K →
      optLt (pm.getD s none)
        (pm.getD ((List.range' 1 K).foldl
          (fun best s => if optLt (pm.getD s none) (pm.getD best none) then s
                         else best) 0) none) = false) ∧
    (∀ s, s < (List.range' 1 K).foldl
        (fun best s => if optLt (pm.getD s none) (pm.getD best none) then s
                       else best) 0 →
      optLt (pm.getD ((List.range' 1 K).foldl
          (fun best s => if optLt (pm.getD s none) (pm.getD best none) then s
                         else best) 0) none)
        (pm.getD s none) = true) := by
  intro K
  induction K with
  | zero =>
    refine ⟨by simp, ?_, by simp⟩
    intro s hs
    have hs0 : s = 0 := by omega
    subst hs0
    simpa using optLt_irrefl (pm.getD 0 none)
  | succ K ih =>
    obtain ⟨hb, hmin, hlow⟩ := ih
    rw [range'_one_concat, List.foldl_append]
    set b := (List.range' 1 K).foldl
      (fun best s => if optLt (pm.getD s none) (pm.getD best none) then s
                     else best) 0 with hbdef
    simp only [List.foldl_cons, List.foldl_nil]
    by_cases hcase :
        optLt (pm.getD (K + 1) none) (pm.getD b none) = true
    · rw [if_pos hcase]
      refine ⟨le_rfl, ?_, ?_⟩
      · intro s hs
        by_cases hsK : s ≤ K
        · rcases Bool.eq_false_or_eq_true
            (optLt (pm.getD s none) (pm.getD (K + 1) none)) with ht | hf
          · have habs := optLt_trans ht hcase
            rw [hmin s hsK] at habs
            exact absurd habs (by simp)
          · exact hf
        · have hs1 : s = K + 1 := by omega
          subst hs1
          exact optLt_irrefl _
      · intro s hs
        have hsK : s ≤ K := by omega
        exact optLt_trans_not hcase (hmin s hsK)
    · have hcase' :
          optLt (pm.getD (K + 1) none) (pm.getD b none) = false :=
        Bool.eq_false_iff.mpr hcase
      rw [if_neg hcase]
      refine ⟨by omega, ?_, fun s hs => hlow s hs⟩
      intro s hs
      by_cases hsK : s ≤ K
      · exact hmin s hsK
      · have hs1 : s = K + 1 := by omega
        subst hs1
        exact hcase'

/-- Function `bestState` picks a state `< 64` whose metric is minimal (in the
`optLt` order, `VITERBI_INF` largest), and strictly better than every
lower-indexed state. -/
theorem bestState_spec (pm : List (Option Nat)) :
    bestState pm < 64 ∧
    (∀ s, s < 64 →
      optLt (pm.getD s none) (pm.getD (bestState pm) none) = false) ∧
    (∀ s, s < bestState pm →
      optLt (pm.getD (bestState pm) none) (pm.getD s none) = true) := by
  have hC : CONV_STATES - 1 = 63 := by decide
  have hbs : bestState pm = (List.range' 1 63).foldl
      (fun best s => if optLt (pm.getD s none) (pm.getD best none) then s
                     else best) 0 := by
    rw [bestState, hC]
  obtain ⟨hb, hmin, hlow⟩ := bestStateAux_spec pm 63
  rw [hbs]
  exact ⟨by omega, fun s hs => hmin s (by omega), hlow⟩

/-- C10: for an even-length coded input with `nCoded/2 ≤ 256` (and at least
one data bit), the state from which `viterbi_decode` starts its traceback
is the one selected by `bestState` over the final path metrics, it carries
the minimum metric among all 64 states, and every state with a lower index
has a strictly larger metric (lowest-index tie-breaking). -/
theorem c10_final_state_selection (coded : List Nat)
    (heven : coded.length % 2 = 0) (hlen2 : 2 ≤ coded.length)
    (hcap : coded.length / 2 ≤ 256) :
    viterbi_decode coded
      = traceback (bestState (viterbiForward (decodePairs coded)).1)
          (viterbiForward (decodePairs coded)).2 ∧
    bestState (viterbiForward (decodePairs coded)).1 < 64 ∧
    (∀ s, s < 64 →
      optLt ((viterbiForward (decodePairs coded)).1.getD s none)
        ((viterbiForward (decodePairs coded)).1.getD
          (bestState (viterbiForward (decodePairs coded)).1) none)
        = false) ∧
    (∀ s, s < bestState (viterbiForward (decodePairs coded)).1 →
      optLt ((viterbiForward (decodePairs coded)).1.getD
          (bestState (viterbiForward (decodePairs coded)).1) none)
        ((viterbiForward (decodePairs coded)).1.getD s none) = true) := by
  obtain ⟨h1, h2, h3⟩ := bestState_spec (viterbiForward (decodePairs coded)).1
  exact ⟨by rw [viterbi_decode, if_neg (by omega)], h1, h2, h3⟩

theorem c10_final_state_selection_witness :
    ((conv_encode [1, 0, 1, 1]).length % 2 = 0 ∧
     2 ≤ (conv_encode [1, 0, 1, 1]).length ∧
     (conv_encode [1, 0, 1, 1]).length / 2 ≤ 256) ∧
    bestState (viterbiForward (decodePairs (conv_encode [1, 0, 1, 1]))).1
      < 64 ∧
    optLt ((viterbiForward (decodePairs (conv_encode [1, 0, 1, 1]))).1.getD
        5 none)
      ((viterbiForward (decodePairs (conv_encode [1, 0, 1, 1]))).1.getD
        (bestState
          (viterbiForward (decodePairs (conv_encode [1, 0, 1, 1]))).1) none)
      = false :=
  ⟨⟨by decide, by decide, by decide⟩,
   (c10_final_state_selection (conv_encode [1, 0, 1, 1]) (by decide)
     (by decide) (by decide)).2.1,
   (c10_final_state_selection (conv_encode [1, 0, 1, 1]) (by decide)
     (by decide) (by decide)).2.2.1 5 (by decide)⟩

/-! ### The encoder recurrence (C8) -/

theorem states2_eq_pow : CONV_STATES * 2 = 2 ^ CONV_K := by decide

theorem conv_encodeAux_length :
    ∀ (x : List Nat) (st : Nat),
      (conv_encodeAux st x).length = 2 * x.length := by
  intro x
  induction x with
  | nil => intro st; rfl
  | cons b rest ih =>
    intro st
    rw [conv_encodeAux]
    simp only [List.length_cons]
    rw [ih]
    omega

theorem regFrom_cons (st b : Nat) (rest : List Nat) :
    ∀ i, regFrom st (b :: rest) (i + 1)
      = regFrom ((2 * st + b % 2) % 2 ^ CONV_K) rest i := by
  intro i
  induction i with
  | zero => simp [regFrom]
  | succ i ih =>
    show (2 * regFrom st (b :: rest) (i + 1)
        + (b :: rest).getD (i + 1) 0 % 2) % 2 ^ CONV_K = _
    rw [ih, List.getD_cons_succ]
    rfl

theorem conv_encodeAux_getD :
    ∀ (x : List Nat) (st i : Nat), i < x.length →
    (conv_encodeAux st x).getD (2 * i) 0
      = popcount (regFrom st x (i + 1) &&& CONV_G0) % 2 ∧
    (conv_encodeAux st x).getD (2 * i + 1) 0
      = popcount (regFrom st x (i + 1) &&& CONV_G1) % 2 := by
  intro x
  induction x with
  | nil => intro st i hi; simp at hi
  | cons b rest ih =>
    intro st i hi
    rw [conv_encodeAux]
    cases i with
    | zero =>
      constructor
      · show popcount ((2 * st + b % 2) % (CONV_STATES * 2) &&& CONV_G0) % 2
          = popcount (regFrom st (b :: rest) 1 &&& CONV_G0) % 2
        rw [states2_eq_pow]
        rfl
      · show popcount ((2 * st + b % 2) % (CONV_STATES * 2) &&& CONV_G1) % 2
          = popcount (regFrom st (b :: rest) 1 &&& CONV_G1) % 2
        rw [states2_eq_pow]
        rfl
    | succ i =>
      have h2 : 2 * (i + 1) = 2 * i + 1 + 1 := by omega
      rw [h2]
      simp only [List.getD_cons_succ]
      rw [regFrom_cons, ← states2_eq_pow]
      exact ih ((2 * st + b % 2) % (CONV_STATES * 2)) i (by simpa using hi)

/-- C8: `conv_encode` produces exactly `2n` bits; the register starts at 0
and is updated as `reg = ((reg << 1) | bit) mod 2^K`, and output pair `i`
is the parity (`popcount … % 2`) of the updated register masked with the
generators `0133` and `0171`. -/
theorem c8_encoder_definition (x : List Nat) :
    (conv_encode x).length = 2 * x.length ∧
    ∀ i, i < x.length →
      (conv_encode x).getD (2 * i) 0
        = popcount (regFrom 0 x (i + 1) &&& CONV_G0) % 2 ∧
      (conv_encode x).getD (2 * i + 1) 0
        = popcount (regFrom 0 x (i + 1) &&& CONV_G1) % 2 :=
  ⟨conv_encodeAux_length x 0, fun i hi => conv_encodeAux_getD x 0 i hi⟩

theorem c8_encoder_definition_witness :
    (2 : Nat) < [1, 0, 1, 1].length ∧
    (conv_encode [1, 0, 1, 1]).getD (2 * 2) 0
      = popcount (regFrom 0 [1, 0, 1, 1] (2 + 1) &&& CONV_G0) % 2 :=
  ⟨by decide, ((c8_encoder_definition [1, 0, 1, 1]).2 2 (by decide)).1⟩

/-! ### Noiseless decoding (C1, C2): trellis path definitions -/

theorem tryTransition_eq (pmOld : List (Option Nat)) (r0 r1 : Nat)
    (acc : List (Option Nat) × List Nat) (sb : Nat × Nat) :
    tryTransition pmOld r0 r1 acc sb =
      match pmOld.getD sb.1 none with
      | none => acc
      | some m =>
        let ns := (2 * sb.1 + sb.2) % CONV_STATES
        let metric := m + bmOf (2 * sb.1 + sb.2) r0 r1
        match acc.1.getD ns none with
        | none => (acc.1.set ns (some metric), acc.2.set ns sb.1)
        | some old =>
          if metric < old then
            (acc.1.set ns (some metric), acc.2.set ns sb.1)
          else acc := rfl

theorem truePairs_length (x : List Nat) :
    ∀ σ, (truePairs σ x).length = x.length := by
  induction x with
  | nil => intro σ; rfl
  | cons b rest ih => intro σ; simp [truePairs, ih]

theorem delayedBits_length (x : List Nat) :
    ∀ σ, (delayedBits σ x).length = x.length := by
  induction x with
  | nil => intro σ; rfl
  | cons b rest ih => intro σ; simp [delayedBits, ih]

theorem pow_K_eq : (2 : Nat) ^ CONV_K = 128 := by decide

theorem states_eq : CONV_STATES = 64 := by decide

theorem regFrom_lt (st : Nat) (x : List Nat) (hst : st < 2 ^ CONV_K) :
    ∀ t, regFrom st x t < 2 ^ CONV_K := by
  intro t
  cases t with
  | zero => exact hst
  | succ t =>
    show (2 * regFrom st x t + x.getD t 0 % 2) % 2 ^ CONV_K < 2 ^ CONV_K
    exact Nat.mod_lt _ (by rw [pow_K_eq]; omega)

theorem regFrom_succ_sigma (st : Nat) (x : List Nat) (t : Nat)
    (hr : regFrom st x t < 2 ^ CONV_K) :
    regFrom st x (t + 1)
      = 2 * (regFrom st x t % CONV_STATES) + x.getD t 0 % 2 := by
  show (2 * regFrom st x t + x.getD t 0 % 2) % 2 ^ CONV_K = _
  rw [pow_K_eq, states_eq]
  rw [pow_K_eq] at hr
  omega

theorem regFrom_mod_sigma (x : List Nat) (st : Nat)
    (hst : st < 2 ^ CONV_K) :
    ∀ t, t ≤ x.length →
      regFrom st x t % CONV_STATES
        = (x.take t).foldl nextSigma (st % CONV_STATES) := by
  intro t
  induction t with
  | zero => intro _; simp [regFrom]
  | succ t ih =>
    intro ht
    have ht' : t ≤ x.length := by omega
    have htlt : t < x.length := by omega
    have htake : x.take (t + 1) = x.take t ++ [x.getD t 0] := by
      rw [List.getD_eq_getElem x 0 htlt]
      rw [List.take_succ, List.getElem?_eq_getElem htlt]
      rfl
    rw [htake, List.foldl_append, ← ih ht']
    show (2 * regFrom st x t + x.getD t 0 % 2) % 2 ^ CONV_K % CONV_STATES
      = nextSigma (regFrom st x t % CONV_STATES) (x.getD t 0)
    rw [nextSigma, pow_K_eq, states_eq]
    omega

theorem truePairs_getD (x : List Nat) :
    ∀ (σ0 t : Nat), t < x.length →
      (truePairs σ0 x).getD t (0, 0)
        = outPair (2 * ((x.take t).foldl nextSigma σ0)
            + x.getD t 0 % 2) := by
  induction x with
  | nil => intro σ0 t ht; simp at ht
  | cons b rest ih =>
    intro σ0 t ht
    cases t with
    | zero => simp [truePairs]
    | succ t =>
      rw [truePairs]
      rw [List.getD_cons_succ]
      rw [ih (nextSigma σ0 b) t (by simpa using ht)]
      rfl

theorem delayedBits_getD_sigma (x : List Nat) :
    ∀ (σ0 t : Nat), t < x.length →
      (delayedBits σ0 x).getD t 0
        = ((x.take (t + 1)).foldl nextSigma σ0) >>> (CONV_K - 2) % 2 := by
  induction x with
  | nil => intro σ0 t ht; simp at ht
  | cons b rest ih =>
    intro σ0 t ht
    cases t with
    | zero => simp [delayedBits]
    | succ t =>
      rw [delayedBits, List.getD_cons_succ,
        ih (nextSigma σ0 b) t (by simpa using ht)]
      rfl

theorem natOfBitsFrom_split (p : List Nat) :
    ∀ a, natOfBitsFrom a p = a * 2 ^ p.length + natOfBitsFrom 0 p := by
  induction p with
  | nil => intro a; simp [natOfBitsFrom]
  | cons b rest ih =>
    intro a
    show natOfBitsFrom (2 * a + b % 2) rest = _
    rw [ih (2 * a + b % 2)]
    have h0 : natOfBitsFrom 0 (b :: rest) = natOfBitsFrom (b % 2) rest := by
      show natOfBitsFrom (2 * 0 + b % 2) rest = _
      rw [Nat.mul_zero, Nat.zero_add]
    rw [h0, ih (b % 2)]
    simp [List.length_cons]
    ring

theorem natOfBitsFrom_zero_lt (p : List Nat) :
    natOfBitsFrom 0 p < 2 ^ p.length := by
  induction p with
  | nil => simp [natOfBitsFrom]
  | cons b rest ih =>
    have h0 : natOfBitsFrom 0 (b :: rest) = natOfBitsFrom (b % 2) rest := by
      show natOfBitsFrom (2 * 0 + b % 2) rest = _
      rw [Nat.mul_zero, Nat.zero_add]
    rw [h0, natOfBitsFrom_split rest (b % 2)]
    have hb : b % 2 ≤ 1 := by omega
    have h1 : b % 2 * 2 ^ rest.length ≤ 2 ^ rest.length := by
      calc b % 2 * 2 ^ rest.length ≤ 1 * 2 ^ rest.length :=
        Nat.mul_le_mul_right _ hb
      _ = 2 ^ rest.length := Nat.one_mul _
    have h2 : (2 : Nat) ^ (b :: rest).length = 2 ^ rest.length * 2 := by
      simp [List.length_cons]
      ring
    omega

theorem sigma_foldl_eq_mod (p : List Nat) :
    ∀ σ0, σ0 < CONV_STATES →
      p.foldl nextSigma σ0 = natOfBitsFrom σ0 p % CONV_STATES := by
  induction p with
  | nil =>
    intro σ0 h
    show σ0 = σ0 % CONV_STATES
    rw [Nat.mod_eq_of_lt h]
  | cons b rest ih =>
    intro σ0 h
    show rest.foldl nextSigma (nextSigma σ0 b)
      = natOfBitsFrom (2 * σ0 + b % 2) rest % CONV_STATES
    rw [ih (nextSigma σ0 b) (Nat.mod_lt _ (by rw [states_eq]; omega))]
    rw [natOfBitsFrom_split rest (nextSigma σ0 b),
      natOfBitsFrom_split rest (2 * σ0 + b % 2)]
    have h1 : (2 * σ0 + b % 2) % CONV_STATES
        ≡ 2 * σ0 + b % 2 [MOD CONV_STATES] := Nat.mod_modEq _ _
    have h2 := (h1.mul_right (2 ^ rest.length)).add_right
      (natOfBitsFrom 0 rest)
    exact h2

theorem decodePairs_getD (coded : List Nat) (t : Nat)
    (ht : t < min (coded.length / 2) 256) :
    (decodePairs coded).getD t (0, 0)
      = (coded.getD (2 * t) 0 % 2, coded.getD (2 * t + 1) 0 % 2) := by
  rw [decodePairs, List.getD_eq_getElem _ _ (by simpa using ht)]
  simp

/-- On a noiseless channel the pairs the decoder reads are exactly the
true transition outputs, tracked on 6-bit states. -/
theorem decodePairs_encode (x : List Nat) (h256 : x.length ≤ 256) :
    decodePairs (conv_encode x) = truePairs 0 x := by
  have hlen : (conv_encode x).length = 2 * x.length :=
    conv_encodeAux_length x 0
  have hmin : min ((conv_encode x).length / 2) 256 = x.length := by
    rw [hlen]; omega
  apply List.ext_getElem
  · rw [decodePairs_length, hmin, truePairs_length]
  · intro t h1 h2
    have htx : t < x.length := by rwa [truePairs_length] at h2
    rw [← List.getD_eq_getElem _ (0, 0) h1, ← List.getD_eq_getElem _ (0, 0) h2]
    rw [decodePairs_getD _ _ (by rw [hmin]; exact htx)]
    rw [truePairs_getD x 0 t htx]
    obtain ⟨hE0, hE1⟩ := conv_encodeAux_getD x 0 t htx
    have hce : conv_encode x = conv_encodeAux 0 x := rfl
    rw [hce, hE0, hE1]
    have hreg : regFrom 0 x (t + 1)
        = 2 * ((x.take t).foldl nextSigma 0) + x.getD t 0 % 2 := by
      rw [regFrom_succ_sigma 0 x t
        (regFrom_lt 0 x (by rw [pow_K_eq]; omega) t)]
      rw [regFrom_mod_sigma x 0 (by rw [pow_K_eq]; omega) t (by omega)]
      rw [Nat.zero_mod]
    rw [hreg, outPair]
    have hmm : ∀ a : Nat, a % 2 % 2 = a % 2 := fun a => by omega
    rw [hmm, hmm]

theorem pow_K2_eq : (2 : Nat) ^ (CONV_K - 2) = 32 := by decide

/-- The high bit of the running 6-bit state after `t+1` noiseless steps is
the input bit `K-2 = 5` positions earlier (or `0` while the register is
still filling). -/
theorem delayedBits_getD (x : List Nat) (hbits : ∀ b ∈ x, b ≤ 1)
    (t : Nat) (ht : t < x.length) :
    (delayedBits 0 x).getD t 0
      = if t < CONV_K - 2 then 0 else x.getD (t - (CONV_K - 2)) 0 := by
  have hK2 : CONV_K - 2 = 5 := by decide
  rw [delayedBits_getD_sigma x 0 t ht]
  rw [sigma_foldl_eq_mod _ 0 (by rw [states_eq]; omega)]
  set y := x.take (t + 1) with hy
  have hylen : y.length = t + 1 := by rw [hy, List.length_take]; omega
  have hshift : ∀ V : Nat, V >>> (CONV_K - 2) = V / 32 := fun V => by
    rw [Nat.shiftRight_eq_div_pow, pow_K2_eq]
  by_cases hcase : t < CONV_K - 2
  · rw [if_pos hcase]
    rw [hK2] at hcase
    have hv : natOfBitsFrom 0 y < 32 := by
      have h := natOfBitsFrom_zero_lt y
      have hpow : (2 : Nat) ^ y.length ≤ 32 := by
        rw [hylen]
        calc (2 : Nat) ^ (t + 1) ≤ 2 ^ 5 :=
          Nat.pow_le_pow_right (by omega) (by omega)
        _ = 32 := by norm_num
      omega
    have hmeq : natOfBitsFrom 0 y % 64 = natOfBitsFrom 0 y :=
      Nat.mod_eq_of_lt (by omega)
    rw [states_eq, hmeq, hshift]
    omega
  · rw [if_neg hcase, hK2] at *
    have ht5 : 5 ≤ t := by omega
    have hsplit : y = y.take (t - 5) ++ y.drop (t - 5) :=
      (List.take_append_drop (t - 5) y).symm
    have hdlen : (y.drop (t - 5)).length = 6 := by
      rw [List.length_drop, hylen]; omega
    have hN : natOfBitsFrom 0 y
        = natOfBitsFrom 0 (y.take (t - 5)) * 2 ^ 6
          + natOfBitsFrom 0 (y.drop (t - 5)) := by
      conv_lhs => rw [hsplit]
      show (y.take (t - 5) ++ y.drop (t - 5)).foldl
          (fun a b => 2 * a + b % 2) 0 = _
      rw [List.foldl_append]
      show natOfBitsFrom (natOfBitsFrom 0 (y.take (t - 5)))
          (y.drop (t - 5)) = _
      rw [natOfBitsFrom_split, hdlen]
    have hdrop_lt : natOfBitsFrom 0 (y.drop (t - 5)) < 64 := by
      have h := natOfBitsFrom_zero_lt (y.drop (t - 5))
      rw [hdlen] at h
      omega
    have hmod : natOfBitsFrom 0 y % CONV_STATES
        = natOfBitsFrom 0 (y.drop (t - 5)) := by
      rw [hN, states_eq]
      omega
    rw [hmod]
    have ht5y : t - 5 < y.length := by omega
    have hcons : y.drop (t - 5) = y[t - 5] :: y.drop (t - 5 + 1) :=
      List.drop_eq_getElem_cons ht5y
    have ht5x : t - 5 < x.length := by omega
    have hq : y[t - 5]? = x[t - 5]? := by
      rw [hy, List.getElem?_take, if_pos (by omega)]
    have hc : y[t - 5] = x[t - 5] := by
      rw [List.getElem?_eq_getElem ht5y,
        List.getElem?_eq_getElem ht5x] at hq
      exact Option.some.inj hq
    have hclen : (y.drop (t - 5 + 1)).length = 5 := by
      rw [List.length_drop, hylen]; omega
    have hNd : natOfBitsFrom 0 (y.drop (t - 5))
        = y[t - 5] % 2 * 2 ^ 5 + natOfBitsFrom 0 (y.drop (t - 5 + 1)) := by
      rw [hcons]
      show natOfBitsFrom (2 * 0 + y[t - 5] % 2) (y.drop (t - 5 + 1)) = _
      rw [Nat.mul_zero, Nat.zero_add, natOfBitsFrom_split, hclen]
    have htail_lt : natOfBitsFrom 0 (y.drop (t - 5 + 1)) < 32 := by
      have h := natOfBitsFrom_zero_lt (y.drop (t - 5 + 1))
      rw [hclen] at h
      omega
    have hcbit : x[t - 5] ≤ 1 :=
      hbits _ (List.getElem_mem _)
    rw [hNd, hshift, hc]
    rw [List.getD_eq_getElem x 0 (by omega)]
    omega

/-! ### The noiseless forward-pass invariant -/

/-- Generator `G0` is odd, so the two transitions out of any state differ
in their first output bit. -/
theorem e0of_flip : ∀ σ, σ < CONV_STATES →
    e0of (2 * σ) ≠ e0of (2 * σ + 1) := by decide

theorem bm_self (σ b : Nat) :
    bmOf (2 * σ + b) (e0of (2 * σ + b)) (e1of (2 * σ + b)) = 0 := by
  simp [bmOf]

theorem bm_flip (σ b bit : Nat) (hσ : σ < CONV_STATES) (hb : b ≤ 1)
    (hbit : bit ≤ 1) (hne : bit ≠ b) :
    1 ≤ bmOf (2 * σ + bit) (e0of (2 * σ + b)) (e1of (2 * σ + b)) := by
  have hflip : e0of (2 * σ + bit) ≠ e0of (2 * σ + b) := by
    rcases Nat.le_one_iff_eq_zero_or_eq_one.mp hb with h | h <;>
      rcases Nat.le_one_iff_eq_zero_or_eq_one.mp hbit with h' | h' <;>
      subst h <;> subst h'
    · exact absurd rfl hne
    · rw [Nat.add_zero]
      exact (e0of_flip σ hσ).symm
    · rw [Nat.add_zero]
      exact e0of_flip σ hσ
    · exact absurd rfl hne
  rw [bmOf, if_pos hflip]
  omega

theorem states_pos : 0 < CONV_STATES := by decide

theorem stepInv_write (σ b : Nat) (pmOld : List (Option Nat))
    (hσ : σ < CONV_STATES) (hb : b ≤ 1) (hpm : GoodPM σ pmOld)
    (acc : List (Option Nat) × List Nat) (s bit m : Nat)
    (hs : s < CONV_STATES) (hbit : bit ≤ 1)
    (hval : pmOld.getD s none = some m)
    (hinv : StepInv σ ((2 * σ + b) % CONV_STATES) acc) :
    StepInv σ ((2 * σ + b) % CONV_STATES)
      (acc.1.set ((2 * s + bit) % CONV_STATES)
        (some (m + bmOf (2 * s + bit) (e0of (2 * σ + b))
          (e1of (2 * σ + b)))),
       acc.2.set ((2 * s + bit) % CONV_STATES) s) := by
  obtain ⟨hL1, hL2, htar, hoth⟩ := hinv
  obtain ⟨hpmL, hpmσ, hpmoth⟩ := hpm
  have hns_lt : (2 * s + bit) % CONV_STATES < CONV_STATES :=
    Nat.mod_lt _ states_pos
  have hmetric :
      (s = σ ∧ bit = b ∧
        m + bmOf (2 * s + bit) (e0of (2 * σ + b)) (e1of (2 * σ + b)) = 0) ∨
      1 ≤ m + bmOf (2 * s + bit) (e0of (2 * σ + b)) (e1of (2 * σ + b)) := by
    by_cases hsσ : s = σ
    · subst hsσ
      have hm0 : m = 0 := by
        have h := hpmσ.symm.trans hval
        exact (Option.some.inj h).symm
      by_cases hbitb : bit = b
      · subst hbitb
        left
        exact ⟨rfl, rfl, by rw [hm0, bm_self]⟩
      · right
        have h := bm_flip s b bit hσ hb hbit hbitb
        omega
    · right
      rcases hpmoth s hs hsσ with hnone | ⟨m', hm', h1m⟩
      · rw [hnone] at hval; cases hval
      · have h := hval.symm.trans hm'
        have hmm : m = m' := Option.some.inj h
        omega
  refine ⟨by simp [hL1], by simp [hL2], ?_, ?_⟩
  · intro v hv
    by_cases hnst : (2 * s + bit) % CONV_STATES = (2 * σ + b) % CONV_STATES
    · rw [hnst] at hv ⊢
      rw [getD_set_self _ _ _ _ (by omega)] at hv
      have hvm := Option.some.inj hv
      rcases hmetric with ⟨hsσ, hbitb, hzero⟩ | h1
      · right
        refine ⟨by omega, ?_⟩
        rw [getD_set_self _ _ _ _ (by omega), hsσ]
      · left; omega
    · rw [getD_set_of_ne _ _ _ _ _ hnst] at hv
      rcases htar v hv with h1 | ⟨h0, hsurv⟩
      · left; exact h1
      · right
        exact ⟨h0, by rw [getD_set_of_ne _ _ _ _ _ hnst]; exact hsurv⟩
  · intro s' hs' hne v hv
    by_cases hs'ns : (2 * s + bit) % CONV_STATES = s'
    · rw [← hs'ns] at hv
      rw [getD_set_self _ _ _ _ (by omega)] at hv
      have hvm := Option.some.inj hv
      rcases hmetric with ⟨hsσ, hbitb, _⟩ | h1
      · exfalso
        apply hne
        rw [← hs'ns, hsσ, hbitb]
      · omega
    · rw [getD_set_of_ne _ _ _ _ _ hs'ns] at hv
      exact hoth s' hs' hne v hv

theorem tryTransition_stepInv (σ b : Nat) (pmOld : List (Option Nat))
    (hσ : σ < CONV_STATES) (hb : b ≤ 1) (hpm : GoodPM σ pmOld)
    (acc : List (Option Nat) × List Nat) (sb : Nat × Nat)
    (hs : sb.1 < CONV_STATES) (hbit : sb.2 ≤ 1)
    (hinv : StepInv σ ((2 * σ + b) % CONV_STATES) acc) :
    StepInv σ ((2 * σ + b) % CONV_STATES)
      (tryTransition pmOld (e0of (2 * σ + b)) (e1of (2 * σ + b)) acc sb) := by
  rw [tryTransition_eq]
  split
  · exact hinv
  · rename_i m heq
    dsimp only
    split
    · exact stepInv_write σ b pmOld hσ hb hpm acc sb.1 sb.2 m hs hbit heq hinv
    · split
      · exact stepInv_write σ b pmOld hσ hb hpm acc sb.1 sb.2 m hs hbit heq
          hinv
      · exact hinv

theorem tryTransition_frozen (pmOld : List (Option Nat)) (r0 r1 : Nat)
    (acc : List (Option Nat) × List Nat) (sb : Nat × Nat) (σ target : Nat)
    (h0 : acc.1.getD target none = some 0)
    (h1 : acc.2.getD target 0 = σ) :
    (tryTransition pmOld r0 r1 acc sb).1.getD target none = some 0 ∧
    (tryTransition pmOld r0 r1 acc sb).2.getD target 0 = σ := by
  rw [tryTransition_eq]
  split
  · exact ⟨h0, h1⟩
  · rename_i m heq
    dsimp only
    by_cases hns : (2 * sb.1 + sb.2) % CONV_STATES = target
    · rw [hns, h0]
      dsimp only
      rw [if_neg (by omega)]
      exact ⟨h0, h1⟩
    · split
      · exact ⟨by rw [getD_set_of_ne _ _ _ _ _ hns]; exact h0,
          by rw [getD_set_of_ne _ _ _ _ _ hns]; exact h1⟩
      · split
        · exact ⟨by rw [getD_set_of_ne _ _ _ _ _ hns]; exact h0,
            by rw [getD_set_of_ne _ _ _ _ _ hns]; exact h1⟩
        · exact ⟨h0, h1⟩

theorem tryTransition_hit (σ b : Nat) (pmOld : List (Option Nat))
    (hσ : σ < CONV_STATES) (hb : b ≤ 1) (hpm : GoodPM σ pmOld)
    (acc : List (Option Nat) × List Nat)
    (hinv : StepInv σ ((2 * σ + b) % CONV_STATES) acc) :
    (tryTransition pmOld (e0of (2 * σ + b)) (e1of (2 * σ + b)) acc
      (σ, b)).1.getD ((2 * σ + b) % CONV_STATES) none = some 0 ∧
    (tryTransition pmOld (e0of (2 * σ + b)) (e1of (2 * σ + b)) acc
      (σ, b)).2.getD ((2 * σ + b) % CONV_STATES) 0 = σ := by
  obtain ⟨hL1, hL2, htar, hoth⟩ := hinv
  obtain ⟨hpmL, hpmσ, hpmoth⟩ := hpm
  have htarget_lt : (2 * σ + b) % CONV_STATES < CONV_STATES :=
    Nat.mod_lt _ states_pos
  rw [tryTransition_eq]
  dsimp only
  rw [hpmσ]
  dsimp only
  rw [bm_self]
  split
  · constructor
    · rw [getD_set_self _ _ _ _ (by omega)]
    · rw [getD_set_self _ _ _ _ (by omega)]
  · rename_i old heq2
    rcases htar old heq2 with h1 | ⟨hzero, hsurv⟩
    · rw [if_pos (by omega)]
      constructor
      · rw [getD_set_self _ _ _ _ (by omega)]
      · rw [getD_set_self _ _ _ _ (by omega)]
    · rw [if_neg (by omega)]
      exact ⟨by rw [heq2, hzero], hsurv⟩

theorem foldl_stepInv (σ b : Nat) (pmOld : List (Option Nat))
    (hσ : σ < CONV_STATES) (hb : b ≤ 1) (hpm : GoodPM σ pmOld) :
    ∀ L : List (Nat × Nat),
      (∀ sb ∈ L, sb.1 < CONV_STATES ∧ sb.2 ≤ 1) →
      ∀ acc, StepInv σ ((2 * σ + b) % CONV_STATES) acc →
      StepInv σ ((2 * σ + b) % CONV_STATES)
        (L.foldl (tryTransition pmOld (e0of (2 * σ + b))
          (e1of (2 * σ + b))) acc) := by
  intro L
  induction L with
  | nil => intro _ acc h; exact h
  | cons sb rest ih =>
    intro hbnd acc h
    rw [List.foldl_cons]
    exact ih (fun y hy => hbnd y (by simp [hy])) _
      (tryTransition_stepInv σ b pmOld hσ hb hpm acc sb
        (hbnd sb (by simp)).1 (hbnd sb (by simp)).2 h)

theorem foldl_frozen (pmOld : List (Option Nat)) (r0 r1 : Nat) :
    ∀ (L : List (Nat × Nat)) (acc : List (Option Nat) × List Nat)
      (σ target : Nat),
      acc.1.getD target none = some 0 → acc.2.getD target 0 = σ →
      (L.foldl (tryTransition pmOld r0 r1) acc).1.getD target none
        = some 0 ∧
      (L.foldl (tryTransition pmOld r0 r1) acc).2.getD target 0 = σ := by
  intro L
  induction L with
  | nil => intro acc σ target h0 h1; exact ⟨h0, h1⟩
  | cons sb rest ih =>
    intro acc σ target h0 h1
    rw [List.foldl_cons]
    obtain ⟨h0', h1'⟩ := tryTransition_frozen pmOld r0 r1 acc sb σ target h0 h1
    exact ih _ σ target h0' h1'

set_option maxRecDepth 4000 in
theorem transitionOrder_mem :
    ∀ σ, σ < CONV_STATES → ∀ b, b ≤ 1 → (σ, b) ∈ transitionOrder := by
  decide

set_option maxRecDepth 4000 in
theorem transitionOrder_bounds :
    ∀ sb ∈ transitionOrder, sb.1 < CONV_STATES ∧ sb.2 ≤ 1 := by
  decide

theorem stepInv_start (σ target : Nat) :
    StepInv σ target
      (List.replicate CONV_STATES none, List.replicate CONV_STATES 0) := by
  have hnone : ∀ i,
      (List.replicate CONV_STATES (none : Option Nat)).getD i none
        = none := by
    intro i
    by_cases h : i < CONV_STATES
    · exact getD_replicate _ _ _ _ h
    · rw [List.getD_eq_getElem?_getD, List.getElem?_eq_none (by simpa using h)]
      rfl
  refine ⟨by simp, by simp, ?_, ?_⟩
  · intro v hv
    rw [hnone] at hv
    cases hv
  · intro s _ _ v hv
    rw [hnone] at hv
    cases hv

theorem viterbiStep_noiseless (σ b : Nat) (pmOld : List (Option Nat))
    (hσ : σ < CONV_STATES) (hb : b ≤ 1) (hpm : GoodPM σ pmOld) :
    GoodPM ((2 * σ + b) % CONV_STATES)
      (viterbiStep pmOld (e0of (2 * σ + b)) (e1of (2 * σ + b))).1 ∧
    (viterbiStep pmOld (e0of (2 * σ + b)) (e1of (2 * σ + b))).2.getD
      ((2 * σ + b) % CONV_STATES) 0 = σ := by
  obtain ⟨L1, L2, hsplit⟩ :=
    List.append_of_mem (transitionOrder_mem σ hσ b hb)
  rw [viterbiStep, hsplit, List.foldl_append, List.foldl_cons]
  have hbnd1 : ∀ sb ∈ L1, sb.1 < CONV_STATES ∧ sb.2 ≤ 1 := fun sb h =>
    transitionOrder_bounds sb (by rw [hsplit]; simp [h])
  have hbnd2 : ∀ sb ∈ L2, sb.1 < CONV_STATES ∧ sb.2 ≤ 1 := fun sb h =>
    transitionOrder_bounds sb (by rw [hsplit]; simp [h])
  have hinv1 := foldl_stepInv σ b pmOld hσ hb hpm L1 hbnd1 _
    (stepInv_start σ ((2 * σ + b) % CONV_STATES))
  have hhit := tryTransition_hit σ b pmOld hσ hb hpm _ hinv1
  have hinv2 := tryTransition_stepInv σ b pmOld hσ hb hpm _ (σ, b) hσ hb
    hinv1
  have hinv3 := foldl_stepInv σ b pmOld hσ hb hpm L2 hbnd2 _ hinv2
  have hfro := foldl_frozen pmOld (e0of (2 * σ + b)) (e1of (2 * σ + b)) L2 _
    σ ((2 * σ + b) % CONV_STATES) hhit.1 hhit.2
  obtain ⟨hA, hB, _, hD⟩ := hinv3
  refine ⟨⟨hA, hfro.1, ?_⟩, hfro.2⟩
  intro s hs hne
  rcases hval : (L2.foldl (tryTransition pmOld (e0of (2 * σ + b))
      (e1of (2 * σ + b)))
      (tryTransition pmOld (e0of (2 * σ + b)) (e1of (2 * σ + b))
        (L1.foldl (tryTransition pmOld (e0of (2 * σ + b))
          (e1of (2 * σ + b)))
          (List.replicate CONV_STATES none,
           List.replicate CONV_STATES 0)) (σ, b))).1.getD s none
    with _ | v
  · left; rfl
  · right
    exact ⟨v, rfl, hD s hs hne v hval⟩

theorem sigma_foldl_lt (x : List Nat) :
    ∀ σ0, σ0 < CONV_STATES → x.foldl nextSigma σ0 < CONV_STATES := by
  induction x with
  | nil => intro σ0 h; exact h
  | cons b rest ih =>
    intro σ0 h
    rw [List.foldl_cons]
    exact ih _ (Nat.mod_lt _ states_pos)

/-- Master induction: on a noiseless pair stream the forward pass keeps
`GoodPM` at the running true state, and the traceback from the final true
state through the collected survivor rows reconstructs the delayed bit
sequence. -/
theorem viterbiForward_noiseless (x : List Nat) :
    ∀ (σ : Nat) (pm0 : List (Option Nat)) (tbl0 : List (List Nat)),
    σ < CONV_STATES → GoodPM σ pm0 →
    GoodPM (x.foldl nextSigma σ)
      ((truePairs σ x).foldl
        (fun acc p =>
          let st := viterbiStep acc.1 p.1 p.2
          (st.1, st.2 :: acc.2)) (pm0, tbl0)).1 ∧
    traceback (x.foldl nextSigma σ)
      ((truePairs σ x).foldl
        (fun acc p =>
          let st := viterbiStep acc.1 p.1 p.2
          (st.1, st.2 :: acc.2)) (pm0, tbl0)).2
      = traceback σ tbl0 ++ delayedBits σ x := by
  induction x with
  | nil =>
    intro σ pm0 tbl0 hσ hpm
    exact ⟨hpm, by simp [truePairs, delayedBits]⟩
  | cons b rest ih =>
    intro σ pm0 tbl0 hσ hpm
    have hb2 : b % 2 ≤ 1 := by omega
    have hkey := viterbiStep_noiseless σ (b % 2) pm0 hσ hb2 hpm
    have hpair1 : (outPair (2 * σ + b % 2)).1 = e0of (2 * σ + b % 2) := rfl
    have hpair2 : (outPair (2 * σ + b % 2)).2 = e1of (2 * σ + b % 2) := rfl
    have hσ'eq : nextSigma σ b = (2 * σ + b % 2) % CONV_STATES := rfl
    have hσ' : nextSigma σ b < CONV_STATES := Nat.mod_lt _ states_pos
    have htp : truePairs σ (b :: rest)
        = outPair (2 * σ + b % 2) :: truePairs (nextSigma σ b) rest := rfl
    have hfold : ∀ acc : List (Option Nat) × List (List Nat),
        (truePairs σ (b :: rest)).foldl
          (fun acc p =>
            let st := viterbiStep acc.1 p.1 p.2
            (st.1, st.2 :: acc.2)) acc
        = (truePairs (nextSigma σ b) rest).foldl
          (fun acc p =>
            let st := viterbiStep acc.1 p.1 p.2
            (st.1, st.2 :: acc.2))
          ((viterbiStep acc.1 (e0of (2 * σ + b % 2))
              (e1of (2 * σ + b % 2))).1,
           (viterbiStep acc.1 (e0of (2 * σ + b % 2))
              (e1of (2 * σ + b % 2))).2 :: acc.2) := by
      intro acc
      rw [htp, List.foldl_cons]
      rfl
    have hxfold : (b :: rest).foldl nextSigma σ
        = rest.foldl nextSigma (nextSigma σ b) := rfl
    rw [hfold, hxfold]
    have IH := ih (nextSigma σ b)
      (viterbiStep pm0 (e0of (2 * σ + b % 2)) (e1of (2 * σ + b % 2))).1
      ((viterbiStep pm0 (e0of (2 * σ + b % 2))
          (e1of (2 * σ + b % 2))).2 :: tbl0)
      hσ' (by rw [hσ'eq]; exact hkey.1)
    refine ⟨IH.1, ?_⟩
    rw [IH.2]
    have htb : traceback (nextSigma σ b)
        ((viterbiStep pm0 (e0of (2 * σ + b % 2))
            (e1of (2 * σ + b % 2))).2 :: tbl0)
        = traceback σ tbl0 ++ [nextSigma σ b >>> (CONV_K - 2) % 2] := by
      rw [traceback]
      have hsurv : (viterbiStep pm0 (e0of (2 * σ + b % 2))
          (e1of (2 * σ + b % 2))).2.getD (nextSigma σ b) 0 = σ := by
        rw [hσ'eq]; exact hkey.2
      rw [hsurv]
    rw [htb]
    have hdb : delayedBits σ (b :: rest)
        = nextSigma σ b >>> (CONV_K - 2) % 2
          :: delayedBits (nextSigma σ b) rest := rfl
    rw [hdb, List.append_assoc]
    rfl

theorem goodPM_pmInit : GoodPM 0 pmInit := by
  refine ⟨by simp [pmInit], ?_, ?_⟩
  · rw [pmInit]
    exact getD_set_self _ _ _ _ (by simp [states_pos])
  · intro s hs hne
    left
    rw [pmInit, getD_set_of_ne _ _ _ _ _ (Ne.symm hne)]
    exact getD_replicate _ _ _ _ hs

theorem bestState_goodPM (σ : Nat) (pm : List (Option Nat))
    (hσ : σ < CONV_STATES) (hpm : GoodPM σ pm) : bestState pm = σ := by
  obtain ⟨hbl, hmin, hlow⟩ := bestState_spec pm
  obtain ⟨hL, hσ0, hoth⟩ := hpm
  by_contra hne
  have h1 := hmin σ (by rw [states_eq] at hσ; omega)
  rw [hσ0] at h1
  rcases hb : pm.getD (bestState pm) none with _ | mb
  · rw [hb] at h1
    simp [optLt] at h1
  · rw [hb] at h1
    simp [optLt] at h1
    rcases hoth (bestState pm) (by rw [states_eq]; omega) hne
      with hnone | ⟨m, hm, h1m⟩
    · rw [hnone] at hb; cases hb
    · rw [hm] at hb
      have := Option.some.inj hb
      omega

/-- On a noiseless channel the reference decoder reproduces the delayed
bit sequence (the high bit of each successive 6-bit state). -/
theorem noiseless_decode (x : List Nat) (hbits : ∀ b ∈ x, b ≤ 1)
    (h1 : 1 ≤ x.length) (h256 : x.length ≤ 256) :
    viterbi_decode (conv_encode x) = delayedBits 0 x := by
  have hlen : (conv_encode x).length = 2 * x.length :=
    conv_encodeAux_length x 0
  have hdec : viterbi_decode (conv_encode x)
      = traceback
          (bestState (viterbiForward (decodePairs (conv_encode x))).1)
          (viterbiForward (decodePairs (conv_encode x))).2 := by
    rw [viterbi_decode, if_neg (by rw [hlen]; omega)]
  rw [hdec, decodePairs_encode x h256]
  have hfwd := viterbiForward_noiseless x 0 pmInit []
    (by rw [states_eq]; omega) goodPM_pmInit
  have hVF : viterbiForward (truePairs 0 x)
      = (truePairs 0 x).foldl
        (fun acc p =>
          let st := viterbiStep acc.1 p.1 p.2
          (st.1, st.2 :: acc.2)) (pmInit, []) := rfl
  rw [hVF]
  rw [bestState_goodPM _ _ (sigma_foldl_lt x 0 (by rw [states_eq]; omega))
    hfwd.1]
  rw [hfwd.2]
  rfl

/-- C2: on a noiseless channel, for `1 ≤ n ≤ 256` input bits the decoded
sequence has `decoded[t] = 0` for `t < K-2 = 5` and
`decoded[t] = x[t-5]` for `5 ≤ t < n`: the decode is the input delayed by
exactly `K-2` positions, because the traceback extracts the high-order bit
of each destination state. -/
theorem c2_delay_invariant (x : List Nat) (hbits : ∀ b ∈ x, b ≤ 1)
    (h1 : 1 ≤ x.length) (h256 : x.length ≤ 256) :
    (viterbi_decode (conv_encode x)).length = x.length ∧
    ∀ t, t < x.length →
      (viterbi_decode (conv_encode x)).getD t 0
        = if t < CONV_K - 2 then 0
          else x.getD (t - (CONV_K - 2)) 0 := by
  rw [noiseless_decode x hbits h1 h256]
  exact ⟨delayedBits_length x 0, fun t ht => delayedBits_getD x hbits t ht⟩

theorem c2_delay_invariant_witness :
    (1 ≤ [1, 0, 1, 1, 0, 0, 1, 0].length ∧
      [1, 0, 1, 1, 0, 0, 1, 0].length ≤ 256 ∧ (6 : Nat) < 8) ∧
    (viterbi_decode (conv_encode [1, 0, 1, 1, 0, 0, 1, 0])).length = 8 ∧
    (viterbi_decode (conv_encode [1, 0, 1, 1, 0, 0, 1, 0])).getD 6 0
      = if 6 < CONV_K - 2 then 0
        else [1, 0, 1, 1, 0, 0, 1, 0].getD (6 - (CONV_K - 2)) 0 :=
  ⟨⟨by decide, by decide, by decide⟩,
   (c2_delay_invariant [1, 0, 1, 1, 0, 0, 1, 0] (by decide) (by decide)
     (by decide)).1,
   (c2_delay_invariant [1, 0, 1, 1, 0, 0, 1, 0] (by decide) (by decide)
     (by decide)).2 6 (by decide)⟩

/-- C1 counterexample: for `x = [1]` the decoder returns `[0]`, not `[1]`
— the round trip is not the identity. -/
theorem c1_counterexample : viterbi_decode (conv_encode [1]) ≠ [1] := by
  decide

theorem getD_append_lt {α : Type} (A B : List α) (t : Nat) (d : α)
    (h : t < A.length) : (A ++ B).getD t d = A.getD t d := by
  rw [List.getD_eq_getElem?_getD, List.getD_eq_getElem?_getD,
    List.getElem?_append, if_pos h]

theorem getD_append_ge {α : Type} (A B : List α) (t : Nat) (d : α)
    (h : A.length ≤ t) : (A ++ B).getD t d = B.getD (t - A.length) d := by
  rw [List.getD_eq_getElem?_getD, List.getD_eq_getElem?_getD,
    List.getElem?_append_right h]

/-- C1 amended: on a noiseless channel the decode of `encode(x)` (for
`1 ≤ n ≤ 256`) is not `x` itself but `x` delayed by `K-2 = 5` positions:
`min n 5` leading zeros followed by the first `n - 5` bits of `x`. -/
theorem c1_roundtrip_delayed (x : List Nat) (hbits : ∀ b ∈ x, b ≤ 1)
    (h1 : 1 ≤ x.length) (h256 : x.length ≤ 256) :
    viterbi_decode (conv_encode x)
      = List.replicate (min x.length (CONV_K - 2)) 0
        ++ x.take (x.length - (CONV_K - 2)) := by
  have hK2 : CONV_K - 2 = 5 := by decide
  rw [noiseless_decode x hbits h1 h256]
  apply List.ext_getElem
  · rw [delayedBits_length]
    simp [List.length_append, List.length_take, List.length_replicate]
    omega
  · intro t hta htb
    have ht : t < x.length := by rwa [delayedBits_length] at hta
    rw [← List.getD_eq_getElem _ 0 hta, ← List.getD_eq_getElem _ 0 htb]
    rw [delayedBits_getD x hbits t ht]
    by_cases hc : t < CONV_K - 2
    · rw [if_pos hc]
      rw [getD_append_lt _ _ _ _
        (by rw [List.length_replicate]; omega)]
      rw [getD_replicate _ _ _ _ (by omega)]
    · rw [if_neg hc]
      rw [hK2] at hc
      have hmin5 : min x.length (CONV_K - 2) = 5 := by
        rw [hK2]; omega
      rw [getD_append_ge _ _ _ _
        (by rw [List.length_replicate, hmin5]; omega)]
      rw [List.length_replicate, hmin5, hK2]
      rw [getD_take _ _ _ _ (by omega)]

theorem c1_roundtrip_delayed_witness :
    (1 ≤ [1, 0, 1, 1, 0, 0, 1, 0].length ∧
      [1, 0, 1, 1, 0, 0, 1, 0].length ≤ 256) ∧
    viterbi_decode (conv_encode [1, 0, 1, 1, 0, 0, 1, 0])
      = List.replicate (min [1, 0, 1, 1, 0, 0, 1, 0].length (CONV_K - 2)) 0
        ++ [1, 0, 1, 1, 0, 0, 1, 0].take
            ([1, 0, 1, 1, 0, 0, 1, 0].length - (CONV_K - 2)) :=
  ⟨⟨by decide, by decide⟩,
   c1_roundtrip_delayed [1, 0, 1, 1, 0, 0, 1, 0] (by decide) (by decide)
     (by decide)⟩

/-! ### Soft/hard agreement on saturated LLRs (C7) -/

theorem tryTransitionSoft_eq (pmOld : List (Option Int)) (l0 l1 : Int)
    (acc : List (Option Int) × List Nat) (sb : Nat × Nat) :
    tryTransitionSoft pmOld l0 l1 acc sb =
      match pmOld.getD sb.1 none with
      | none => acc
      | some m =>
        let ns := (2 * sb.1 + sb.2) % CONV_STATES
        let metric := m - ((if e0of (2 * sb.1 + sb.2) ≠ 0 then -l0 else l0)
          + (if e1of (2 * sb.1 + sb.2) ≠ 0 then -l1 else l1))
        match acc.1.getD ns none with
        | none => (acc.1.set ns (some metric), acc.2.set ns sb.1)
        | some old =>
          if metric < old then
            (acc.1.set ns (some metric), acc.2.set ns sb.1)
          else acc := rfl

theorem getD_map_option {α β : Type} (f : α → β) (l : List (Option α))
    (s : Nat) :
    (l.map (Option.map f)).getD s none = (l.getD s none).map f := by
  rw [List.getD_eq_getElem?_getD, List.getD_eq_getElem?_getD,
    List.getElem?_map]
  cases l[s]? with
  | none => rfl
  | some o => rfl

theorem e0of_le (full : Nat) : e0of full ≤ 1 := by
  rw [e0of]; omega

theorem e1of_le (full : Nat) : e1of full ≤ 1 := by
  rw [e1of]; omega

theorem llr_term (e r : Nat) (he : e ≤ 1) (hr : r ≤ 1) :
    (if e ≠ 0 then -(toLLR r) else toLLR r)
      = 10 - 20 * (if e ≠ r then (1 : Int) else 0) := by
  rcases Nat.le_one_iff_eq_zero_or_eq_one.mp he with h | h <;>
    rcases Nat.le_one_iff_eq_zero_or_eq_one.mp hr with h' | h' <;>
    subst h <;> subst h' <;> simp [toLLR] <;> norm_num

theorem bmSoft_eq (full r0 r1 : Nat) (h0 : r0 ≤ 1) (h1 : r1 ≤ 1) :
    (if e0of full ≠ 0 then -(toLLR r0) else toLLR r0)
      + (if e1of full ≠ 0 then -(toLLR r1) else toLLR r1)
      = 20 - 20 * (bmOf full r0 r1 : Int) := by
  rw [llr_term (e0of full) r0 (e0of_le full) h0,
    llr_term (e1of full) r1 (e1of_le full) h1, bmOf]
  push_cast
  split_ifs <;> ring

theorem tryTransition_corr (t : Nat) (pmH : List (Option Nat))
    (r0 r1 : Nat) (hr0 : r0 ≤ 1) (hr1 : r1 ≤ 1)
    (accH : List (Option Nat) × List Nat) (sb : Nat × Nat) :
    tryTransitionSoft (pmH.map (Option.map (phiT t))) (toLLR r0) (toLLR r1)
      (accH.1.map (Option.map (phiT (t + 1))), accH.2) sb
      = ((tryTransition pmH r0 r1 accH sb).1.map
          (Option.map (phiT (t + 1))),
         (tryTransition pmH r0 r1 accH sb).2) := by
  rw [tryTransition_eq, tryTransitionSoft_eq]
  rw [getD_map_option]
  cases hpm : pmH.getD sb.1 none with
  | none => rfl
  | some m =>
    dsimp only [Option.map]
    have hbm := bmSoft_eq (2 * sb.1 + sb.2) r0 r1 hr0 hr1
    rw [hbm]
    rw [getD_map_option]
    have hmetric : phiT t m - (20 - 20 * (bmOf (2 * sb.1 + sb.2) r0 r1 : Int))
        = phiT (t + 1) (m + bmOf (2 * sb.1 + sb.2) r0 r1) := by
      rw [phiT, phiT]
      push_cast
      ring
    cases hacc : accH.1.getD ((2 * sb.1 + sb.2) % CONV_STATES) none with
    | none =>
      dsimp only [Option.map]
      rw [List.map_set, hmetric]
      rfl
    | some old =>
      dsimp only [Option.map]
      have hiff : (phiT t m
            - (20 - 20 * (bmOf (2 * sb.1 + sb.2) r0 r1 : Int))
          < phiT (t + 1) old)
          ↔ (m + bmOf (2 * sb.1 + sb.2) r0 r1 < old) := by
        rw [hmetric, phiT, phiT]
        constructor
        · intro h
          push_cast at h
          omega
        · intro h
          push_cast
          omega
      by_cases hlt : m + bmOf (2 * sb.1 + sb.2) r0 r1 < old
      · rw [if_pos hlt, if_pos (hiff.mpr hlt), List.map_set, hmetric]
        rfl
      · rw [if_neg hlt, if_neg (fun hcon => hlt (hiff.mp hcon))]

theorem viterbiStep_corr (t : Nat) (pmH : List (Option Nat)) (r0 r1 : Nat)
    (hr0 : r0 ≤ 1) (hr1 : r1 ≤ 1) :
    viterbiStepSoft (pmH.map (Option.map (phiT t))) (toLLR r0) (toLLR r1)
      = ((viterbiStep pmH r0 r1).1.map (Option.map (phiT (t + 1))),
         (viterbiStep pmH r0 r1).2) := by
  rw [viterbiStep, viterbiStepSoft]
  have hgen : ∀ (L : List (Nat × Nat)) (accH : List (Option Nat) × List Nat),
      L.foldl (tryTransitionSoft (pmH.map (Option.map (phiT t)))
          (toLLR r0) (toLLR r1))
        (accH.1.map (Option.map (phiT (t + 1))), accH.2)
      = ((L.foldl (tryTransition pmH r0 r1) accH).1.map
          (Option.map (phiT (t + 1))),
         (L.foldl (tryTransition pmH r0 r1) accH).2) := by
    intro L
    induction L with
    | nil => intro accH; rfl
    | cons sb rest ih =>
      intro accH
      rw [List.foldl_cons, List.foldl_cons,
        tryTransition_corr t pmH r0 r1 hr0 hr1 accH sb]
      exact ih (tryTransition pmH r0 r1 accH sb)
  have hinit : (List.replicate CONV_STATES (none : Option Int),
        List.replicate CONV_STATES (0 : Nat))
      = ((List.replicate CONV_STATES (none : Option Nat)).map
          (Option.map (phiT (t + 1))),
         List.replicate CONV_STATES 0) := by
    rw [List.map_replicate]
    rfl
  rw [hinit]
  exact hgen transitionOrder
    (List.replicate CONV_STATES none, List.replicate CONV_STATES 0)

theorem forward_corr_aux (pairs : List (Nat × Nat)) :
    ∀ (t0 : Nat) (pmH : List (Option Nat)) (tbl : List (List Nat)),
    (∀ p ∈ pairs, p.1 ≤ 1 ∧ p.2 ≤ 1) →
    (pairs.map (fun p => (toLLR p.1, toLLR p.2))).foldl
      (fun acc p =>
        let st := viterbiStepSoft acc.1 p.1 p.2
        (st.1, st.2 :: acc.2))
      (pmH.map (Option.map (phiT t0)), tbl)
    = ((pairs.foldl
        (fun acc p =>
          let st := viterbiStep acc.1 p.1 p.2
          (st.1, st.2 :: acc.2)) (pmH, tbl)).1.map
          (Option.map (phiT (t0 + pairs.length))),
       (pairs.foldl
        (fun acc p =>
          let st := viterbiStep acc.1 p.1 p.2
          (st.1, st.2 :: acc.2)) (pmH, tbl)).2) := by
  induction pairs with
  | nil =>
    intro t0 pmH tbl _
    simp
  | cons p rest ih =>
    intro t0 pmH tbl hbnd
    have hp := hbnd p (by simp)
    have hstep := viterbiStep_corr t0 pmH p.1 p.2 hp.1 hp.2
    rw [List.map_cons, List.foldl_cons, List.foldl_cons]
    dsimp only
    rw [hstep]
    dsimp only
    rw [ih (t0 + 1) (viterbiStep pmH p.1 p.2).1
      ((viterbiStep pmH p.1 p.2).2 :: tbl)
      (fun q hq => hbnd q (by simp [hq]))]
    simp only [List.length_cons]
    have hT : t0 + 1 + rest.length = t0 + (rest.length + 1) := by omega
    rw [hT]

theorem optLtZ_map (T : Nat) (a b : Option Nat) :
    optLtZ (a.map (phiT T)) (b.map (phiT T)) = optLt a b := by
  cases a <;> cases b <;> simp [optLtZ, optLt, phiT] <;> omega

theorem bestStateSoft_map (T : Nat) (pm : List (Option Nat)) :
    bestStateSoft (pm.map (Option.map (phiT T))) = bestState pm := by
  rw [bestStateSoft, bestState]
  have hgen : ∀ (L : List Nat) (b0 : Nat),
      L.foldl (fun best s =>
        if optLtZ ((pm.map (Option.map (phiT T))).getD s none)
          ((pm.map (Option.map (phiT T))).getD best none) then s else best) b0
      = L.foldl (fun best s =>
        if optLt (pm.getD s none) (pm.getD best none) then s else best)
          b0 := by
    intro L
    induction L with
    | nil => intro b0; rfl
    | cons s rest ih =>
      intro b0
      rw [List.foldl_cons, List.foldl_cons]
      have hcond : optLtZ ((pm.map (Option.map (phiT T))).getD s none)
          ((pm.map (Option.map (phiT T))).getD b0 none)
          = optLt (pm.getD s none) (pm.getD b0 none) := by
        rw [getD_map_option, getD_map_option, optLtZ_map]
      rw [hcond]
      by_cases hc : optLt (pm.getD s none) (pm.getD b0 none) = true
      · rw [if_pos hc]
        exact ih s
      · rw [if_neg hc]
        exact ih b0
  exact hgen _ 0

theorem conv_encode_bits :
    ∀ (x : List Nat) (st v : Nat), v ∈ conv_encodeAux st x → v ≤ 1 := by
  intro x
  induction x with
  | nil => intro st v hv; simp [conv_encodeAux] at hv
  | cons b rest ih =>
    intro st v hv
    rw [conv_encodeAux] at hv
    simp only [List.mem_cons] at hv
    rcases hv with h | h | h
    · subst h; omega
    · subst h; omega
    · exact ih _ v h

theorem getD_map_lt {α β : Type} (f : α → β) (l : List α) (i : Nat)
    (d : β) (d' : α) (h : i < l.length) :
    (l.map f).getD i d = f (l.getD i d') := by
  rw [List.getD_eq_getElem _ _ (by simpa using h),
    List.getD_eq_getElem _ _ h, List.getElem_map]

theorem decodePairsSoft_map (coded : List Nat)
    (hbits : ∀ v ∈ coded, v ≤ 1) :
    decodePairsSoft (coded.map toLLR)
      = (decodePairs coded).map (fun p => (toLLR p.1, toLLR p.2)) := by
  have hlen : (coded.map toLLR).length = coded.length := by simp
  apply List.ext_getElem
  · simp only [decodePairsSoft, decodePairs, List.length_map,
      List.length_range, hlen]
  · intro t h1 h2
    have ht : t < min (coded.length / 2) 256 := by
      have h := h1
      simp only [decodePairsSoft, List.length_map, List.length_range,
        hlen] at h
      exact h
    have h2t : 2 * t < coded.length := by omega
    have h2t1 : 2 * t + 1 < coded.length := by omega
    rw [← List.getD_eq_getElem _ ((0 : Int), (0 : Int)) h1,
      ← List.getD_eq_getElem _ ((0 : Int), (0 : Int)) h2]
    have hL : (decodePairsSoft (coded.map toLLR)).getD t (0, 0)
        = ((coded.map toLLR).getD (2 * t) 0,
           (coded.map toLLR).getD (2 * t + 1) 0) := by
      rw [decodePairsSoft,
        List.getD_eq_getElem _ _ (by
          simp only [List.length_map, List.length_range, hlen]
          exact ht)]
      simp
    have hR : ((decodePairs coded).map
          (fun p => (toLLR p.1, toLLR p.2))).getD t (0, 0)
        = (toLLR (coded.getD (2 * t) 0 % 2),
           toLLR (coded.getD (2 * t + 1) 0 % 2)) := by
      rw [getD_map_lt _ _ _ _ (0, 0) (by rwa [decodePairs_length])]
      rw [decodePairs_getD coded t ht]
    rw [hL, hR]
    rw [getD_map_lt _ _ _ _ 0 h2t, getD_map_lt _ _ _ _ 0 h2t1]
    have hb1 : coded.getD (2 * t) 0 ≤ 1 := by
      rw [List.getD_eq_getElem _ _ h2t]
      exact hbits _ (List.getElem_mem _)
    have hb2 : coded.getD (2 * t + 1) 0 ≤ 1 := by
      rw [List.getD_eq_getElem _ _ h2t1]
      exact hbits _ (List.getElem_mem _)
    have hm1 : coded.getD (2 * t) 0 % 2 = coded.getD (2 * t) 0 := by omega
    have hm2 : coded.getD (2 * t + 1) 0 % 2 = coded.getD (2 * t + 1) 0 := by
      omega
    rw [hm1, hm2]

theorem pmInitSoft_eq : pmInitSoft = pmInit.map (Option.map (phiT 0)) := by
  rw [pmInit, pmInitSoft, List.map_set, List.map_replicate]
  rfl

/-- C7: feeding the soft decoder the saturated LLR stream derived from
`conv_encode x` (`+10` for coded bit 0, `-10` for coded bit 1, exact in
double precision) produces exactly the hard decoder's output, for every
bit sequence `x` with `1 ≤ n ≤ 256`. -/
theorem c7_soft_hard_agreement (x : List Nat) (hbits : ∀ b ∈ x, b ≤ 1)
    (h1 : 1 ≤ x.length) (h256 : x.length ≤ 256) :
    viterbi_decode_soft ((conv_encode x).map toLLR)
      = viterbi_decode (conv_encode x) := by
  have hcb : ∀ v ∈ conv_encode x, v ≤ 1 := fun v hv =>
    conv_encode_bits x 0 v hv
  have hclen : (conv_encode x).length = 2 * x.length :=
    conv_encodeAux_length x 0
  have hmlen : ((conv_encode x).map toLLR).length = (conv_encode x).length :=
    by simp
  have hpbnd : ∀ p ∈ decodePairs (conv_encode x), p.1 ≤ 1 ∧ p.2 ≤ 1 := by
    intro p hp
    rw [decodePairs] at hp
    simp only [List.mem_map, List.mem_range] at hp
    obtain ⟨t, ht, hpe⟩ := hp
    rw [← hpe]
    constructor <;> simp <;> omega
  have hdecS : viterbi_decode_soft ((conv_encode x).map toLLR)
      = traceback
          (bestStateSoft (viterbiForwardSoft
            (decodePairsSoft ((conv_encode x).map toLLR))).1)
          (viterbiForwardSoft
            (decodePairsSoft ((conv_encode x).map toLLR))).2 := by
    rw [viterbi_decode_soft, if_neg (by rw [hmlen, hclen]; omega)]
  have hdecH : viterbi_decode (conv_encode x)
      = traceback
          (bestState (viterbiForward (decodePairs (conv_encode x))).1)
          (viterbiForward (decodePairs (conv_encode x))).2 := by
    rw [viterbi_decode, if_neg (by rw [hclen]; omega)]
  rw [hdecS, hdecH]
  rw [decodePairsSoft_map (conv_encode x) hcb]
  have hfwd : viterbiForwardSoft ((decodePairs (conv_encode x)).map
        (fun p => (toLLR p.1, toLLR p.2)))
      = ((viterbiForward (decodePairs (conv_encode x))).1.map
          (Option.map (phiT (decodePairs (conv_encode x)).length)),
         (viterbiForward (decodePairs (conv_encode x))).2) := by
    rw [viterbiForwardSoft, viterbiForward, pmInitSoft_eq]
    have h := forward_corr_aux (decodePairs (conv_encode x)) 0 pmInit []
      hpbnd
    rw [h]
    rw [Nat.zero_add]
  rw [hfwd]
  rw [bestStateSoft_map]

theorem c7_soft_hard_agreement_witness :
    (1 ≤ [1, 0, 1, 1].length ∧ [1, 0, 1, 1].length ≤ 256) ∧
    viterbi_decode_soft ((conv_encode [1, 0, 1, 1]).map toLLR)
      = viterbi_decode (conv_encode [1, 0, 1, 1]) :=
  ⟨⟨by decide, by decide⟩,
   c7_soft_hard_agreement [1, 0, 1, 1] (by decide) (by decide) (by decide)⟩

end WirelessComms
